import Mathlib

/-!
Verification development for the configuration engine of the repository
(options_helper.cc, options_type.h and their callers).

Strings from the C++ source are embedded as `List Char`; `size_t` positions
become `Nat`, with `std::string::npos` rendered as `Option.none`.  Loops whose
index jumps forward by a data-dependent amount are written with an explicit
fuel argument (always instantiated with more fuel than the loop can consume,
see the adequacy lemmas) so that every definition reduces in the kernel.
-/

namespace RocksSpec

/-- Status mirrors rocksdb::Status restricted to the kinds produced by the
    configuration engine.  Messages are kept verbatim from the source. -/
inductive Status where
  | ok : Status
  | invalidArgument (msg : List Char) : Status
  | notFound (msg : List Char) : Status
  | notSupported (msg : List Char) : Status
deriving DecidableEq, Repr

def Status.isOk : Status → Bool
  | .ok => true
  | _ => false

def Status.isNotSupported : Status → Bool
  | .notSupported _ => true
  | _ => false

/-- C `isspace` on the characters that can occur in option strings. -/
def isSpaceC (c : Char) : Bool :=
  c = ' ' || c = '\t' || c = '\n' || c = '\x0b' || c = '\x0c' || c = '\r'

/-- trim from util/string_util.h: strip whitespace from both ends. -/
def trimL (s : List Char) : List Char :=
  ((s.dropWhile isSpaceC).reverse.dropWhile isSpaceC).reverse

/-- Index of the first occurrence of `ch` (std::string::find relative to the
    start of the list), `none` for npos. -/
def findIdxL (ch : Char) : List Char → Option Nat
  | [] => Option.none
  | c :: t => if c = ch then some 0 else (findIdxL ch t).map (· + 1)

/-- The brace scan of OptionTypeInfo::NextToken: starting just after an
    opening brace with nesting count `cnt`, return the index (relative to the
    scanned list) of the brace that closes the token, or `none` when the
    braces are unbalanced. -/
def findClose : List Char → Nat → Option Nat
  | [], _ => Option.none
  | c :: t, cnt =>
    if c = '{' then (findClose t (cnt + 1)).map (· + 1)
    else if c = '}' then
      if cnt = 1 then some 0 else (findClose t (cnt - 1)).map (· + 1)
    else (findClose t cnt).map (· + 1)

/-- The brace branch of NextToken after the opening brace has been seen:
    `j` is the index of the brace relative to the scan start, `tail` the
    characters after it.  The token is the trimmed interior; after the
    matching close brace, whitespace is skipped and anything other than
    end-of-input or the delimiter is an error. -/
def nextTokenBrace (j : Nat) (tail : List Char) (delim : Char) :
    Except Status (List Char × Option Nat) :=
  match findClose tail 1 with
  | some b =>
    if ((tail.drop (b + 1)).takeWhile isSpaceC).length < (tail.drop (b + 1)).length ∧
        (tail.drop (b + 1)).getD ((tail.drop (b + 1)).takeWhile isSpaceC).length ' ' ≠ delim then
      .error (.invalidArgument "Unexpected chars after nested options".data)
    else
      .ok (trimL (tail.take b),
        some (j + 1 + (b + 1) + ((tail.drop (b + 1)).takeWhile isSpaceC).length))
  | Option.none =>
    .error (.invalidArgument "Mismatched curly braces for nested options".data)

/-- Core of OptionTypeInfo::NextToken, operating on the suffix of the input
    that starts at the scan position: skip whitespace, then the brace branch
    or the plain scan to the delimiter.  Returns the token and the relative
    index `end` (`none` = npos). -/
def nextTokenCore (s : List Char) (delim : Char) : Except Status (List Char × Option Nat) :=
  match s.drop (s.takeWhile isSpaceC).length with
  | [] => .ok ([], Option.none)
  | c :: tail =>
    if c = '{' then nextTokenBrace (s.takeWhile isSpaceC).length tail delim
    else
      match findIdxL delim (c :: tail) with
      | Option.none => .ok (trimL (c :: tail), Option.none)
      | some i =>
        .ok (trimL ((c :: tail).take i), some ((s.takeWhile isSpaceC).length + i))

/-- OptionTypeInfo::NextToken (options_helper.cc line 836): scan `opts` from
    absolute position `pos`; the returned end index is absolute. -/
def nextToken (opts : List Char) (delim : Char) (pos : Nat) :
    Except Status (List Char × Option Nat) :=
  (nextTokenCore (opts.drop pos) delim).map (fun te => (te.1, te.2.map (pos + ·)))

/-- Assoc-list lookup standing in for unordered_map::find. -/
def lookupKV (m : List (List Char × List Char)) (k : List Char) : Option (List Char) :=
  (m.find? (fun p => p.1 = k)).map (·.2)

/-- Assignment `(*opts_map)[key] = value` on the assoc-list model of
    unordered_map: overwrite an existing binding, otherwise append. -/
def insertKV (m : List (List Char × List Char)) (k v : List Char) :
    List (List Char × List Char) :=
  if (lookupKV m k).isSome then m.map (fun p => if p.1 = k then (k, v) else p)
  else m ++ [(k, v)]

/-- The brace-stripping loop at the top of StringToMap (options_helper.cc
    line 558): while the string is longer than 2 characters and starts with
    an opening and ends with a closing brace, strip them and trim. -/
def peelAux : Nat → List Char → List Char
  | 0, s => s
  | fuel + 1, s =>
    if 2 < s.length ∧ s.head? = some '{' ∧ s.getLast? = some '}' then
      peelAux fuel (trimL (s.drop 1).dropLast)
    else s

def peelBraces (s : List Char) : List Char := peelAux (s.length + 1) s

/-- The key = value loop of StringToMap, written on the suffix of the input
    that starts at the current read position.  `fuel` dominates the number of
    iterations (each one drops at least one character). -/
def stmGoAux : Nat → List Char → List (List Char × List Char) →
    Except Status (List (List Char × List Char))
  | 0, _, _ => .error (.invalidArgument "out of fuel".data)
  | fuel + 1, rem, acc =>
    if rem = [] then .ok acc
    else
      match findIdxL '=' rem with
      | Option.none => .error (.invalidArgument "Mismatched key value pair, '=' expected".data)
      | some eq =>
        let key := trimL (rem.take eq)
        if key = [] then .error (.invalidArgument "Empty key found".data)
        else
          match nextTokenCore (rem.drop (eq + 1)) ';' with
          | .error s => .error s
          | .ok (value, oe) =>
            let acc2 := insertKV acc key value
            match oe with
            | Option.none => .ok acc2
            | some e => stmGoAux fuel (rem.drop (eq + 1 + e + 1)) acc2

/-- StringToMap (options_helper.cc line 549): trim, peel outer brace layers,
    then read key = value pairs separated by ';'. -/
def stringToMap (input : List Char) : Except Status (List (List Char × List Char)) :=
  let opts := peelBraces (trimL input)
  stmGoAux (opts.length + 1) opts []

/-- Sanity levels of ConfigOptions (None ≪ LooselyCompatible ≪ ExactMatch).
    The enumeration lives in rocksdb/convenience.h, which is not part of this
    repository snapshot; only the ordering matters here. -/
inductive SanityLevel where
  | sanityNone
  | looselyCompatible
  | exactMatch
deriving DecidableEq, Repr

def SanityLevel.toNat : SanityLevel → Nat
  | .sanityNone => 0
  | .looselyCompatible => 1
  | .exactMatch => 2

instance : LT SanityLevel := ⟨fun a b => a.toNat < b.toNat⟩

instance (a b : SanityLevel) : Decidable (a < b) := by
  change Decidable (a.toNat < b.toNat); infer_instance

/-- ConfigOptions.  The constructor bodies and defaults live in
    rocksdb/convenience.h which is outside this snapshot; the fields and their
    defaults are modelled from the spec (section 3, Invocation Context).
    `registry`, `env` and `info_log` are opaque handles, modelled as numbers
    so that theorems can state that they are propagated unchanged. -/
structure ConfigOptions where
  delimiter : List Char := [';']
  inputStringsEscaped : Bool := true
  ignoreUnknownOptions : Bool := false
  ignoreUnknownObjects : Bool := false
  sanityLevel : SanityLevel := .exactMatch
  invokePrepareOptions : Bool := true
  detailed : Bool := false
  registry : Nat := 0
  env : Nat := 0
  infoLog : Nat := 0
deriving DecidableEq, Repr

/-- ConfigOptions::Embedded (options_helper.cc line 46): copy the invocation
    context and force the delimiter to ";". -/
def ConfigOptions.Embedded (o : ConfigOptions) : ConfigOptions :=
  { o with delimiter := [';'] }

/-- Modelled from the spec: ConfigOptions::IsCheckEnabled lives in
    rocksdb/convenience.h outside this snapshot.  Per the spec, a sanity level
    of None is never checked, and otherwise a descriptor is checked when its
    level does not exceed the context's maximum strictness. -/
def ConfigOptions.IsCheckEnabled (o : ConfigOptions) (l : SanityLevel) : Bool :=
  l ≠ .sanityNone && l.toNat ≤ o.sanityLevel.toNat

/-- Modelled from the spec: ConfigOptions::IsDetailed (convenience.h, outside
    this snapshot) just reports the detail flag of the context. -/
def ConfigOptions.IsDetailed (o : ConfigOptions) : Bool := o.detailed

/-- OptionType (options_type.h line 19). -/
inductive OptionType where
  | kBoolean | kInt | kInt32T | kInt64T | kUInt | kUInt32T | kUInt64T | kSizeT
  | kString | kDouble | kCompactionStyle | kCompactionPri | kSliceTransform
  | kCompressionType | kCompactionStopStyle | kChecksumType | kEncodingType
  | kEnum | kStruct | kVector | kConfigurable | kCustomizable | kUnknown
deriving DecidableEq, Repr

/-- OptionVerificationType (options_type.h line 45). -/
inductive OptionVerificationType where
  | kNormal | kByName | kByNameAllowNull | kByNameAllowFromNull | kDeprecated | kAlias
deriving DecidableEq, Repr

inductive CompactionStyle where
  | kCompactionStyleLevel | kCompactionStyleUniversal | kCompactionStyleFIFO
  | kCompactionStyleNone
deriving DecidableEq, Repr

inductive CompactionPri where
  | kByCompensatedSize | kOldestLargestSeqFirst | kOldestSmallestSeqFirst
  | kMinOverlappingRatio
deriving DecidableEq, Repr

inductive CompressionType where
  | kNoCompression | kSnappyCompression | kZlibCompression | kBZip2Compression
  | kLZ4Compression | kLZ4HCCompression | kXpressCompression | kZSTD
  | kZSTDNotFinalCompression | kDisableCompressionOption
deriving DecidableEq, Repr

inductive ChecksumType where
  | kNoChecksum | kCRC32c | kxxHash | kxxHash64
deriving DecidableEq, Repr

inductive EncodingType where
  | kPlain | kPrefix
deriving DecidableEq, Repr

inductive CompactionStopStyle where
  | kCompactionStopStyleSimilarSize | kCompactionStopStyleTotalSize
deriving DecidableEq, Repr

/-- compaction_style_string_map (options_helper.cc line 817). -/
def compactionStyleStringMap : List (List Char × CompactionStyle) :=
  [("kCompactionStyleLevel".data, .kCompactionStyleLevel),
   ("kCompactionStyleUniversal".data, .kCompactionStyleUniversal),
   ("kCompactionStyleFIFO".data, .kCompactionStyleFIFO),
   ("kCompactionStyleNone".data, .kCompactionStyleNone)]

/-- compaction_pri_string_map (options_helper.cc line 824). -/
def compactionPriStringMap : List (List Char × CompactionPri) :=
  [("kByCompensatedSize".data, .kByCompensatedSize),
   ("kOldestLargestSeqFirst".data, .kOldestLargestSeqFirst),
   ("kOldestSmallestSeqFirst".data, .kOldestSmallestSeqFirst),
   ("kMinOverlappingRatio".data, .kMinOverlappingRatio)]

/-- compression_type_string_map (options_helper.cc line 287). -/
def compressionTypeStringMap : List (List Char × CompressionType) :=
  [("kNoCompression".data, .kNoCompression),
   ("kSnappyCompression".data, .kSnappyCompression),
   ("kZlibCompression".data, .kZlibCompression),
   ("kBZip2Compression".data, .kBZip2Compression),
   ("kLZ4Compression".data, .kLZ4Compression),
   ("kLZ4HCCompression".data, .kLZ4HCCompression),
   ("kXpressCompression".data, .kXpressCompression),
   ("kZSTD".data, .kZSTD),
   ("kZSTDNotFinalCompression".data, .kZSTDNotFinalCompression),
   ("kDisableCompressionOption".data, .kDisableCompressionOption)]

/-- checksum_type_string_map (options_helper.cc line 281). -/
def checksumTypeStringMap : List (List Char × ChecksumType) :=
  [("kNoChecksum".data, .kNoChecksum), ("kCRC32c".data, .kCRC32c),
   ("kxxHash".data, .kxxHash), ("kxxHash64".data, .kxxHash64)]

/-- encoding_type_string_map (options_helper.cc line 813). -/
def encodingTypeStringMap : List (List Char × EncodingType) :=
  [("kPlain".data, .kPlain), ("kPrefix".data, .kPrefix)]

/-- compaction_stop_style_string_map (options_helper.cc line 831). -/
def compactionStopStyleStringMap : List (List Char × CompactionStopStyle) :=
  [("kCompactionStopStyleSimilarSize".data, .kCompactionStopStyleSimilarSize),
   ("kCompactionStopStyleTotalSize".data, .kCompactionStopStyleTotalSize)]

/-- ParseEnum (options_type.h line 92): look the token up in the map. -/
def parseEnum {E : Type} (map : List (List Char × E)) (v : List Char) : Option E :=
  (map.find? (fun p => p.1 = v)).map (·.2)

/-- SerializeEnum (options_type.h line 103): first map entry carrying the
    value. -/
def serializeEnum {E : Type} [DecidableEq E] (map : List (List Char × E)) (e : E) :
    Option (List Char) :=
  (map.find? (fun p => p.2 = e)).map (·.1)

def nullptrString : List Char := "nullptr".data

def digitChar (d : Nat) : Char := Char.ofNat (48 + d)

/-- Decimal digits of `n`, most significant first; fuel-driven version of the
    usual div-10 recursion (any fuel above `n` gives the same digits). -/
def natDigitsAux : Nat → Nat → List Char
  | 0, _ => []
  | fuel + 1, n =>
    if n < 10 then [digitChar n]
    else natDigitsAux fuel (n / 10) ++ [digitChar (n % 10)]

/-- ToString on an unsigned value: plain base-10. -/
def natToDec (n : Nat) : List Char := natDigitsAux (n + 1) n

/-- ToString on a signed value. -/
def intToDec (i : Int) : List Char :=
  if i < 0 then '-' :: natToDec i.natAbs else natToDec i.natAbs

def digitVal? (c : Char) : Option Nat :=
  if c.isDigit then some (c.toNat - 48) else Option.none

def digitStep (acc : Option Nat) (c : Char) : Option Nat :=
  match acc, digitVal? c with
  | some a, some d => some (a * 10 + d)
  | _, _ => Option.none

def digitsToNat? (l : List Char) : Option Nat := l.foldl digitStep (some 0)

/-- Modelled from the spec: ParseUint64/ParseSizeT live in util/string_util.cc
    outside this snapshot.  Per the spec they accept base-10 digits followed by
    an optional human-readable multiplier K, M, G or T. -/
def parseNatM (l : List Char) : Option Nat :=
  if l.takeWhile Char.isDigit = [] then Option.none
  else
    match digitsToNat? (l.takeWhile Char.isDigit) with
    | Option.none => Option.none
    | some n =>
      match l.drop (l.takeWhile Char.isDigit).length with
      | [] => some n
      | [c] =>
        if c = 'K' then some (n * 1024)
        else if c = 'M' then some (n * (1024 * 1024))
        else if c = 'G' then some (n * (1024 * 1024 * 1024))
        else if c = 'T' then some (n * (1024 * 1024 * 1024 * 1024))
        else Option.none
      | _ => Option.none

/-- Modelled from the spec: ParseInt/ParseInt32/ParseInt64 (util/string_util.cc,
    outside this snapshot): an optional minus sign followed by the unsigned
    form. -/
def parseIntM (l : List Char) : Option Int :=
  match l with
  | '-' :: rest => (parseNatM rest).map (fun n => -(n : Int))
  | _ => (parseNatM l).map (fun n => (n : Int))

/-- Modelled from the spec: ParseBoolean (util/string_util.cc, outside this
    snapshot) accepts case-insensitive true|false|1|0|on|off. -/
def parseBooleanM (l : List Char) : Option Bool :=
  let low := l.map Char.toLower
  if low = "true".data ∨ low = "1".data ∨ low = "on".data then some true
  else if low = "false".data ∨ low = "0".data ∨ low = "off".data then some false
  else Option.none

/-- Characters that must not appear bare inside a serialized option value. -/
def isSpecialOpt (c : Char) : Bool :=
  c = ';' || c = '=' || c = '{' || c = '}' || c = '#' || c = '\\' || isSpaceC c

/-- Code letter written after the backslash for each escaped character. -/
def escCode (c : Char) : Char :=
  if c = ';' then 's' else if c = '=' then 'q'
  else if c = '{' then 'b' else if c = '}' then 'd'
  else if c = '#' then 'h' else if c = '\\' then '\\'
  else if c = ' ' then '_' else if c = '\t' then 't'
  else if c = '\n' then 'n' else if c = '\x0b' then 'v'
  else if c = '\x0c' then 'f' else 'r'

def unescCode (c : Char) : Char :=
  if c = 's' then ';' else if c = 'q' then '='
  else if c = 'b' then '{' else if c = 'd' then '}'
  else if c = 'h' then '#' else if c = '\\' then '\\'
  else if c = '_' then ' ' else if c = 't' then '\t'
  else if c = 'n' then '\n' else if c = 'v' then '\x0b'
  else if c = 'f' then '\x0c' else if c = 'r' then '\r' else c

/-- Modelled from the spec: EscapeOptionString (util/string_util.cc, outside
    this snapshot).  Per the spec the serialized form of a string protects
    embedded '=', ';', braces, '#' and boundary whitespace so that the escaped
    text survives the tokenizer and round-trips through the parser. -/
def escapeOptionString : List Char → List Char
  | [] => []
  | c :: t =>
    if isSpecialOpt c then '\\' :: escCode c :: escapeOptionString t
    else c :: escapeOptionString t

/-- Modelled from the spec: UnescapeOptionString (util/string_util.cc, outside
    this snapshot): inverse pre-parse applied when input_strings_escaped. -/
def unescapeOptionString : List Char → List Char
  | [] => []
  | c :: t =>
    if c = '\\' then
      match t with
      | [] => [c]
      | c2 :: t2 => unescCode c2 :: unescapeOptionString t2
    else c :: unescapeOptionString t

/-- Fixed-point rendering of a double in micros, matching the "%f"-style
    6-fractional-digit form of ToString(double); modelled from the spec
    ("Double: standard decimal representation"), the helper itself living in
    util/string_util.cc outside this snapshot. -/
def padLeftZeros (k : Nat) (l : List Char) : List Char :=
  List.replicate (k - l.length) '0' ++ l

def doubleToDec (m : Int) : List Char :=
  (if m < 0 then ['-'] else []) ++
    natToDec (m.natAbs / 1000000) ++ '.' :: padLeftZeros 6 (natToDec (m.natAbs % 1000000))

def parseUDoubleM (l : List Char) : Option Nat :=
  if l.takeWhile Char.isDigit = [] then Option.none
  else
    match digitsToNat? (l.takeWhile Char.isDigit) with
    | Option.none => Option.none
    | some ip =>
      match l.drop (l.takeWhile Char.isDigit).length with
      | [] => some (ip * 1000000)
      | '.' :: fr =>
        if fr ≠ [] ∧ fr.all Char.isDigit then
          (digitsToNat? ((fr ++ List.replicate 6 '0').take 6)).map
            (fun f => ip * 1000000 + f)
        else Option.none
      | _ => Option.none

/-- Modelled from the spec: ParseDouble (util/string_util.cc, outside this
    snapshot): standard decimal representation, stored here in micros. -/
def parseDoubleM (l : List Char) : Option Int :=
  match l with
  | '-' :: rest => (parseUDoubleM rest).map (fun n => -(n : Int))
  | _ => (parseUDoubleM l).map (fun n => (n : Int))

/-- Prefix-transform values (the immutable object held in the shared slot). -/
inductive SliceT where
  | fixedPrefixT (n : Int)
  | cappedPrefixT (n : Int)
  | noopT
deriving DecidableEq, Repr

/-- Modelled from the spec: SliceTransform::Name (slice_transform.cc, outside
    this snapshot) reports the long-form identifier of the transform. -/
def sliceName : SliceT → List Char
  | .fixedPrefixT n => "rocksdb.FixedPrefix.".data ++ intToDec n
  | .cappedPrefixT n => "rocksdb.CappedPrefix.".data ++ intToDec n
  | .noopT => "rocksdb.Noop".data

/-- Value of a primitive (non-composite) option slot. -/
inductive PrimVal where
  | boolean (b : Bool)
  | intV (i : Int)
  | int32V (i : Int)
  | int64V (i : Int)
  | uintV (n : Nat)
  | uint32V (n : Nat)
  | uint64V (n : Nat)
  | sizeTV (n : Nat)
  | stringV (s : List Char)
  | doubleV (m : Int)
  | compactionStyleV (v : CompactionStyle)
  | compactionPriV (v : CompactionPri)
  | compressionTypeV (v : CompressionType)
  | sliceTransformV (t : Option SliceT)
  | checksumTypeV (v : ChecksumType)
  | encodingTypeV (v : EncodingType)
  | compactionStopStyleV (v : CompactionStopStyle)
deriving DecidableEq, Repr

def tagOfVal : PrimVal → OptionType
  | .boolean _ => .kBoolean
  | .intV _ => .kInt
  | .int32V _ => .kInt32T
  | .int64V _ => .kInt64T
  | .uintV _ => .kUInt
  | .uint32V _ => .kUInt32T
  | .uint64V _ => .kUInt64T
  | .sizeTV _ => .kSizeT
  | .stringV _ => .kString
  | .doubleV _ => .kDouble
  | .compactionStyleV _ => .kCompactionStyle
  | .compactionPriV _ => .kCompactionPri
  | .compressionTypeV _ => .kCompressionType
  | .sliceTransformV _ => .kSliceTransform
  | .checksumTypeV _ => .kChecksumType
  | .encodingTypeV _ => .kEncodingType
  | .compactionStopStyleV _ => .kCompactionStopStyle

/-- Outcome of ParseOptionHelper: a parsed value, a `false` return (the tag is
    not handled by the primitive codec, or an enum/slice token was not
    recognized), or a thrown conversion exception. -/
inductive ParseOutcome where
  | okVal (v : PrimVal)
  | unhandled
  | failed
deriving DecidableEq, Repr

/-- ParseSliceTransformHelper (options_helper.cc line 301).  `none` models the
    helper returning false; a conversion exception from ParseInt becomes
    `ParseOutcome.failed`. -/
def parseSliceHelper (fixedName cappedName value : List Char) : Option ParseOutcome :=
  if fixedName.length < value.length ∧ value.take fixedName.length = fixedName then
    some (match parseIntM (trimL (value.drop fixedName.length)) with
          | some n => .okVal (.sliceTransformV (some (.fixedPrefixT n)))
          | Option.none => .failed)
  else if cappedName.length < value.length ∧ value.take cappedName.length = cappedName then
    some (match parseIntM (trimL (value.drop cappedName.length)) with
          | some n => .okVal (.sliceTransformV (some (.cappedPrefixT n)))
          | Option.none => .failed)
  else if value = "rocksdb.Noop".data then
    some (.okVal (.sliceTransformV (some .noopT)))
  else if value = nullptrString then
    some (.okVal (.sliceTransformV Option.none))
  else Option.none

/-- ParseSliceTransform (options_helper.cc line 331): try the short prefixes,
    then the long forms. -/
def parseSliceTransform (value : List Char) : ParseOutcome :=
  match parseSliceHelper "fixed:".data "capped:".data value with
  | some r => r
  | Option.none =>
    match parseSliceHelper "rocksdb.FixedPrefix.".data "rocksdb.CappedPrefix.".data value with
    | some r => r
    | Option.none => .unhandled

def outcomeOfOpt (f : α → PrimVal) : Option α → ParseOutcome
  | some a => .okVal (f a)
  | Option.none => .failed

def outcomeOfEnum (f : α → PrimVal) : Option α → ParseOutcome
  | some a => .okVal (f a)
  | Option.none => .unhandled

/-- ParseOptionHelper (options_helper.cc line 356): dispatch on the type tag.
    Conversions of the numeric tags throw on bad input (`failed`); enum and
    slice-transform lookups make the helper return false on unknown tokens
    (`unhandled`), as does every tag outside the switch. -/
def parsePrimValue (t : OptionType) (value : List Char) : ParseOutcome :=
  match t with
  | .kBoolean => outcomeOfOpt PrimVal.boolean (parseBooleanM value)
  | .kInt => outcomeOfOpt PrimVal.intV (parseIntM value)
  | .kInt32T => outcomeOfOpt PrimVal.int32V (parseIntM value)
  | .kInt64T => outcomeOfOpt PrimVal.int64V (parseIntM value)
  | .kUInt => outcomeOfOpt PrimVal.uintV (parseNatM value)
  | .kUInt32T => outcomeOfOpt PrimVal.uint32V (parseNatM value)
  | .kUInt64T => outcomeOfOpt PrimVal.uint64V (parseNatM value)
  | .kSizeT => outcomeOfOpt PrimVal.sizeTV (parseNatM value)
  | .kString => .okVal (.stringV value)
  | .kDouble => outcomeOfOpt PrimVal.doubleV (parseDoubleM value)
  | .kCompactionStyle => outcomeOfEnum PrimVal.compactionStyleV (parseEnum compactionStyleStringMap value)
  | .kCompactionPri => outcomeOfEnum PrimVal.compactionPriV (parseEnum compactionPriStringMap value)
  | .kCompressionType => outcomeOfEnum PrimVal.compressionTypeV (parseEnum compressionTypeStringMap value)
  | .kSliceTransform => parseSliceTransform value
  | .kChecksumType => outcomeOfEnum PrimVal.checksumTypeV (parseEnum checksumTypeStringMap value)
  | .kEncodingType => outcomeOfEnum PrimVal.encodingTypeV (parseEnum encodingTypeStringMap value)
  | .kCompactionStopStyle => outcomeOfEnum PrimVal.compactionStopStyleV (parseEnum compactionStopStyleStringMap value)
  | _ => .unhandled

/-- SerializeSingleOptionHelper (options_helper.cc line 423).  `none` models
    the helper returning false (a tag outside the switch, or an enum value
    missing from its map). -/
def serializePrimValue : PrimVal → Option (List Char)
  | .boolean b => some (if b then "true".data else "false".data)
  | .intV i => some (intToDec i)
  | .int32V i => some (intToDec i)
  | .int64V i => some (intToDec i)
  | .uintV n => some (natToDec n)
  | .uint32V n => some (natToDec n)
  | .uint64V n => some (natToDec n)
  | .sizeTV n => some (natToDec n)
  | .doubleV m => some (doubleToDec m)
  | .stringV s => some (escapeOptionString s)
  | .compactionStyleV v => serializeEnum compactionStyleStringMap v
  | .compactionPriV v => serializeEnum compactionPriStringMap v
  | .compressionTypeV v => serializeEnum compressionTypeStringMap v
  | .sliceTransformV t =>
    some (match t with
          | some st => sliceName st
          | Option.none => nullptrString)
  | .checksumTypeV v => serializeEnum checksumTypeStringMap v
  | .encodingTypeV v => serializeEnum encodingTypeStringMap v
  | .compactionStopStyleV v => serializeEnum compactionStopStyleStringMap v

/-- AreEqualDoubles (options_helper.cc line 1083): |a - b| < 1e-5, expressed
    on the micros fixed-point representation (1e-5 = 10 micros). -/
def areEqualDoubles (a b : Int) : Bool := (a - b).natAbs < 10

/-- AreOptionsEqual (options_helper.cc line 1087): tag-wise value equality;
    doubles use the tolerance; tags outside the switch (including
    kSliceTransform and all composite tags) fall into the default and yield
    false. -/
def areOptionsEqualT (t : OptionType) (v1 v2 : PrimVal) : Bool :=
  match t, v1, v2 with
  | .kBoolean, .boolean a, .boolean b => a = b
  | .kInt, .intV a, .intV b => a = b
  | .kUInt, .uintV a, .uintV b => a = b
  | .kInt32T, .int32V a, .int32V b => a = b
  | .kInt64T, .int64V a, .int64V b => a = b
  | .kUInt32T, .uint32V a, .uint32V b => a = b
  | .kUInt64T, .uint64V a, .uint64V b => a = b
  | .kSizeT, .sizeTV a, .sizeTV b => a = b
  | .kString, .stringV a, .stringV b => a = b
  | .kDouble, .doubleV a, .doubleV b => areEqualDoubles a b
  | .kCompactionStyle, .compactionStyleV a, .compactionStyleV b => a = b
  | .kCompactionStopStyle, .compactionStopStyleV a, .compactionStopStyleV b => a = b
  | .kCompactionPri, .compactionPriV a, .compactionPriV b => a = b
  | .kCompressionType, .compressionTypeV a, .compressionTypeV b => a = b
  | .kChecksumType, .checksumTypeV a, .checksumTypeV b => a = b
  | .kEncodingType, .encodingTypeV a, .encodingTypeV b => a = b
  | _, _, _ => false

/-- The compare bits of OptionTypeFlags (kCompareDefault / kCompareNever /
    kCompareLoose / kCompareExact, options_type.h line 63). -/
inductive CompareFlag where
  | compareDefault | compareNever | compareLoose | compareExact
deriving DecidableEq, Repr

/-- OptionTypeFlags (options_type.h line 63) as named booleans plus the
    compare bits. -/
structure OptionFlags where
  compare : CompareFlag := .compareDefault
  mutableF : Bool := false
  pointerF : Bool := false
  sharedF : Bool := false
  uniqueF : Bool := false
  allowNull : Bool := false
  stringNone : Bool := false
  stringShallow : Bool := false
  dontPrepare : Bool := false
deriving DecidableEq, Repr

/-- OptionTypeInfo (options_type.h line 150).  The raw byte offset of the
    C++ descriptor is replaced by typed accessors into the owning record `σ`
    (`getPrim`/`setPrim` for primitive slots, `getChild`/`setChild` for the
    Configurable handle reached through AsRawPointer).  The virtual calls a
    descriptor can make on its child Configurable (`γ`) are carried as
    function fields. -/
structure OptTypeInfo (σ γ : Type) where
  type : OptionType
  verification : OptionVerificationType := .kNormal
  flags : OptionFlags := {}
  parserFunc : Option (List Char → List Char → ConfigOptions → σ → Except Status σ) := Option.none
  stringFunc : Option (List Char → σ → ConfigOptions → Except Status (List Char)) := Option.none
  equalsFunc : Option (List Char → σ → σ → ConfigOptions → List Char → Bool × List Char) := Option.none
  getPrim : σ → Option PrimVal := fun _ => Option.none
  setPrim : σ → PrimVal → σ := fun s _ => s
  getChild : σ → Option γ := fun _ => Option.none
  setChild : σ → γ → σ := fun s _ => s
  childConfigureFromString : γ → List Char → ConfigOptions → Except Status γ := fun c _ _ => .ok c
  childConfigureOption : γ → List Char → List Char → ConfigOptions → Except Status γ := fun c _ _ _ => .ok c
  childMatches : γ → γ → ConfigOptions → Bool × List Char := fun _ _ _ => (true, [])
  childGetId : γ → List Char := fun _ => []
  childToString : γ → ConfigOptions → List Char := fun _ _ => []

def OptTypeInfo.IsDeprecated (info : OptTypeInfo σ γ) : Bool :=
  info.verification = .kDeprecated

def OptTypeInfo.IsAlias (info : OptTypeInfo σ γ) : Bool :=
  info.verification = .kAlias

def OptTypeInfo.IsByName (info : OptTypeInfo σ γ) : Bool :=
  info.verification = .kByName ∨ info.verification = .kByNameAllowNull ∨
    info.verification = .kByNameAllowFromNull

def OptTypeInfo.IsStruct (info : OptTypeInfo σ γ) : Bool :=
  info.type = .kStruct

def OptTypeInfo.IsConfigurable (info : OptTypeInfo σ γ) : Bool :=
  info.type = .kConfigurable ∨ info.type = .kCustomizable

def OptTypeInfo.IsCustomizable (info : OptTypeInfo σ γ) : Bool :=
  info.type = .kCustomizable

/-- OptionTypeInfo::GetSanityLevel (options_type.h line 369). -/
def OptTypeInfo.GetSanityLevel (info : OptTypeInfo σ γ) : SanityLevel :=
  if info.IsDeprecated ∨ info.IsAlias then .sanityNone
  else
    match info.flags.compare with
    | .compareDefault => .exactMatch
    | .compareNever => .sanityNone
    | .compareLoose => .looselyCompatible
    | .compareExact => .exactMatch

/-- OptionTypeInfo::ShouldSerialize (options_type.h line 385). -/
def OptTypeInfo.ShouldSerialize (info : OptTypeInfo σ γ) : Bool :=
  if info.IsDeprecated ∨ info.IsAlias then false
  else if info.flags.stringNone then false
  else true

/-- OptionTypeInfo::ParseOption (options_helper.cc line 889).  The two-argument
    Status constructors of the source are modelled as message concatenation;
    the caught conversion exception keeps the option name. -/
def parseOption (info : OptTypeInfo σ γ) (optName value : List Char)
    (ctx : ConfigOptions) (st : σ) : Except Status σ :=
  if info.IsDeprecated then .ok st
  else
    let optValue := if ctx.inputStringsEscaped then unescapeOptionString value else value
    match info.parserFunc with
    | some f =>
      if info.flags.dontPrepare then
        f optName optValue { ctx with invokePrepareOptions := false } st
      else f optName optValue ctx st
    | Option.none =>
      match parsePrimValue info.type optValue with
      | .okVal v => .ok (info.setPrim st v)
      | .failed => .error (.invalidArgument ("Error parsing ".data ++ optName ++ [':']))
      | .unhandled =>
        if info.IsConfigurable then
          let cfg := info.getChild st
          if optValue = [] then .ok st
          else
            match cfg with
            | Option.none => .error (.notFound ("Could not find configurable: ".data ++ optName))
            | some child =>
              if (findIdxL '=' optValue).isSome then
                let copy := { ctx with ignoreUnknownOptions := false }
                -- the kDontPrepare special case is in the source here, but its
                -- body is commented out (options_helper.cc line 923-925)
                match info.childConfigureFromString child optValue copy with
                | .ok child2 => .ok (info.setChild st child2)
                | .error e => .error e
              else
                match info.childConfigureOption child optName optValue ctx with
                | .ok child2 => .ok (info.setChild st child2)
                | .error e => .error e
        else if info.IsByName then
          .error (.notSupported ("Deserializing the option ".data ++ optName ++ " is not supported".data))
        else .error (.invalidArgument ("Error parsing:".data ++ optName))

/-- SerializeSingleOptionHelper applied through the typed accessor: `none`
    models the helper returning false. -/
def serializeSingleHelper (t : OptionType) : Option PrimVal → Option (List Char)
  | some pv => if tagOfVal pv = t then serializePrimValue pv else Option.none
  | Option.none => Option.none

/-- OptionTypeInfo::SerializeOption (options_helper.cc line 989). -/
def serializeOption (info : OptTypeInfo σ γ) (optName : List Char) (st : σ)
    (ctx : ConfigOptions) : Except Status (List Char) :=
  if info.IsDeprecated then .ok []
  else if info.flags.stringNone then
    .error (.notSupported ("Cannot serialize option: ".data ++ optName))
  else
    match info.stringFunc with
    | some f => f optName st ctx
    | Option.none =>
      match serializeSingleHelper info.type (info.getPrim st) with
      | some s => .ok s
      | Option.none =>
        if info.IsCustomizable then
          match info.getChild st with
          | Option.none => .ok nullptrString
          | some custom =>
            if info.flags.stringShallow ∧ ¬ctx.IsDetailed then
              .ok (info.childGetId custom)
            else .ok (info.childToString custom ctx.Embedded)
        else if info.IsConfigurable then
          match info.getChild st with
          | some config => .ok (info.childToString config ctx.Embedded)
          | Option.none => .ok []
        else .error (.invalidArgument ("Cannot serialize option: ".data ++ optName))

/-- OptionTypeInfo::CheckByName with a serialized right-hand side
    (options_helper.cc line 1271). -/
def checkByNameValue (info : OptTypeInfo σ γ) (optName : List Char) (st : σ)
    (thatValue : List Char) (ctx : ConfigOptions) : Bool :=
  if ¬info.IsByName then false
  else
    match serializeOption info optName st ctx with
    | .error _ => false
    | .ok thisValue =>
      if info.verification = .kByNameAllowFromNull then
        if thatValue = nullptrString then true else thisValue = thatValue
      else if info.verification = .kByNameAllowNull then
        if thatValue = nullptrString then true else thisValue = thatValue
      else thisValue = thatValue

/-- OptionTypeInfo::CheckByName on two records (options_helper.cc line 1258). -/
def checkByName (info : OptTypeInfo σ γ) (optName : List Char) (thisSt thatSt : σ)
    (ctx : ConfigOptions) : Bool :=
  if info.IsByName then
    match serializeOption info optName thatSt ctx with
    | .ok thatValue => checkByNameValue info optName thisSt thatValue ctx
    | .error _ => false
  else false

def areOptionsEqualMaybe (t : OptionType) : Option PrimVal → Option PrimVal → Bool
  | some a, some b => areOptionsEqualT t a b
  | _, _ => false

/-- OptionTypeInfo::MatchesOption (options_helper.cc line 1140).  The in-out
    `mismatch` string becomes the second component of the result.  The C++
    shortcut `this_config == that_config` on two non-null pointers compares
    identities that the value model cannot observe; the model recurses in that
    case, exactly as the source does for two distinct pointers. -/
def matchesOption (info : OptTypeInfo σ γ) (optName : List Char) (thisSt thatSt : σ)
    (ctx : ConfigOptions) (mismatch : List Char) : Bool × List Char :=
  let level := info.GetSanityLevel
  if ¬ctx.IsCheckEnabled level then (true, mismatch)
  else
    match info.equalsFunc with
    | some f =>
      let r := f optName thisSt thatSt ctx mismatch
      if r.1 then (true, r.2)
      else (false, if r.2 = [] then optName else r.2)
    | Option.none =>
      if areOptionsEqualMaybe info.type (info.getPrim thisSt) (info.getPrim thatSt) then
        (true, mismatch)
      else if info.IsConfigurable then
        match info.getChild thisSt, info.getChild thatSt with
        | Option.none, Option.none => (true, mismatch)
        | some c1, some c2 =>
          let copy := if level < ctx.sanityLevel then { ctx with sanityLevel := level } else ctx
          let r := info.childMatches c1 c2 copy
          if r.1 then (true, mismatch) else (false, optName ++ '.' :: r.2)
        | _, _ => (false, if mismatch = [] then optName else mismatch)
      else (false, if mismatch = [] then optName else mismatch)

/-- MatchesOptionsTypeFromMap (options_helper.cc line 1240). -/
def matchesOptionsTypeFromMap (table : List (List Char × OptTypeInfo σ γ))
    (thisSt thatSt : σ) (ctx : ConfigOptions) (mismatch : List Char) : Bool × List Char :=
  match table with
  | [] => (true, mismatch)
  | (name, info) :: rest =>
    if ctx.IsCheckEnabled info.GetSanityLevel then
      let r := matchesOption info name thisSt thatSt ctx mismatch
      if ¬r.1 ∧ ¬checkByName info name thisSt thatSt ctx then (false, r.2)
      else matchesOptionsTypeFromMap rest thisSt thatSt ctx r.2
    else matchesOptionsTypeFromMap rest thisSt thatSt ctx mismatch

def lookupTI (table : List (List Char × OptTypeInfo σ γ)) (k : List Char) :
    Option (OptTypeInfo σ γ) :=
  (table.find? (fun p => p.1 = k)).map (·.2)

def startsWithL (s pre : List Char) : Bool := s.take pre.length = pre

def endsWithL (s suff : List Char) : Bool :=
  suff.length ≤ s.length ∧ s.drop (s.length - suff.length) = suff

/-- OptionTypeInfo::FindOption (options_helper.cc line 1292): exact lookup,
    then a split at the first '.' (at a positive index) when the short name
    denotes a struct or a Configurable. -/
def findOption (optName : List Char) (table : List (List Char × OptTypeInfo σ γ)) :
    Option (List Char × OptTypeInfo σ γ) :=
  match lookupTI table optName with
  | some info => some (optName, info)
  | Option.none =>
    match findIdxL '.' optName with
    | some idx =>
      if 0 < idx then
        match lookupTI table (optName.take idx) with
        | some info =>
          if info.IsStruct ∨ info.IsConfigurable then
            some (optName.drop (idx + 1), info)
          else Option.none
        | Option.none => Option.none
      else Option.none
    | Option.none => Option.none

/-- ParseOption with the in-place Status convention of the callers: on error
    the record is unchanged. -/
def parseOptionS (info : OptTypeInfo σ γ) (optName value : List Char)
    (ctx : ConfigOptions) (st : σ) : Status × σ :=
  match parseOption info optName value ctx st with
  | .ok st2 => (.ok, st2)
  | .error e => (e, st)

/-- The sub-option loop of ParseStruct: each ParseOption overwrites `status`
    and the loop keeps going (only an unknown key returns immediately), as in
    the source. -/
def parseStructLoop (structName : List Char)
    (structMap : List (List Char × OptTypeInfo σ γ)) (ctx : ConfigOptions) :
    List (List Char × List Char) → Status → σ → Status × σ
  | [], status, st => (status, st)
  | (k, v) :: rest, _, st =>
    match lookupTI structMap k with
    | some info =>
      let r := parseOptionS info k v ctx st
      parseStructLoop structName structMap ctx rest r.1 r.2
    | Option.none =>
      (.invalidArgument ("Unrecognized option: ".data ++ structName ++ '.' :: k), st)

/-- OptionTypeInfo::ParseStruct (options_helper.cc line 942). -/
def parseStruct (structName : List Char)
    (structMap : List (List Char × OptTypeInfo σ γ)) (optName optValue : List Char)
    (ctx : ConfigOptions) (st : σ) : Status × σ :=
  if optName = structName ∨ endsWithL optName ('.' :: structName) then
    match stringToMap optValue with
    | .error e => (e, st)
    | .ok optMap => parseStructLoop structName structMap ctx optMap .ok st
  else if startsWithL optName (structName ++ ['.']) then
    match findOption (optName.drop (structName.length + 1)) structMap with
    | some (elemName, info) => parseOptionS info elemName optValue ctx st
    | Option.none => (.invalidArgument ("Unrecognized option: ".data ++ optName), st)
  else
    match findOption optName structMap with
    | some (elemName, info) => parseOptionS info elemName optValue ctx st
    | Option.none =>
      (.invalidArgument ("Unrecognized option: ".data ++ structName ++ '.' :: optName), st)

/-- The per-field loop of SerializeStruct's whole-struct branch
    (options_helper.cc line 1039), producing the text between the braces. -/
def serializeStructLoop (structMap : List (List Char × OptTypeInfo σ γ)) (st : σ)
    (embedded : ConfigOptions) : Except Status (List Char) :=
  match structMap with
  | [] => .ok []
  | (name, info) :: rest =>
    if info.ShouldSerialize then
      match serializeOption info name st embedded with
      | .error e => .error e
      | .ok single =>
        (serializeStructLoop rest st embedded).map
          (fun restS => name ++ '=' :: single ++ embedded.delimiter ++ restS)
    else serializeStructLoop rest st embedded

/-- OptionTypeInfo::SerializeStruct (options_helper.cc line 1028). -/
def serializeStruct (structName : List Char)
    (structMap : List (List Char × OptTypeInfo σ γ)) (optName : List Char) (st : σ)
    (ctx : ConfigOptions) : Except Status (List Char) :=
  if endsWithL optName structName then
    match serializeStructLoop structMap st ctx.Embedded with
    | .error e => .error e
    | .ok result => .ok ('{' :: result ++ ['}'])
  else if startsWithL optName (structName ++ ['.']) then
    match findOption (optName.drop (structName.length + 1)) structMap with
    | some (elemName, info) => serializeOption info elemName st ctx
    | Option.none => .error (.invalidArgument ("Unrecognized option: ".data ++ optName))
  else
    match findOption optName structMap with
    | Option.none => .error (.invalidArgument ("Unrecognized option: ".data ++ optName))
    | some (elemName, info) =>
      if info.ShouldSerialize then
        serializeOption info (optName ++ '.' :: elemName) st ctx
      else .ok []

/-- Loop body of ParseVector (options_type.h line 561), on the suffix of the
    value that starts at the current scan position.  The loop runs while the
    previous status is OK, the position is inside the value and the previous
    end was not npos; `fuel` dominates the iteration count. -/
def parseVectorAux {T : Type} (p : List Char → ConfigOptions → Except Status T)
    (sep : Char) (opts copy : ConfigOptions) :
    Nat → List Char → List T → Except Status (List T)
  | 0, _, _ => .error (.invalidArgument "out of fuel".data)
  | fuel + 1, rem, acc =>
    if rem = [] then .ok acc
    else
      match nextTokenCore rem sep with
      | .error s => .error s
      | .ok (token, oe) =>
        match p token copy with
        | .ok elem =>
          match oe with
          | Option.none => .ok (acc ++ [elem])
          | some e => parseVectorAux p sep opts copy fuel (rem.drop (e + 1)) (acc ++ [elem])
        | .error s =>
          if opts.ignoreUnknownObjects ∧ s.isNotSupported then
            match oe with
            | Option.none => .ok acc
            | some e => parseVectorAux p sep opts copy fuel (rem.drop (e + 1)) acc
          else .error s

/-- ParseVector (options_type.h line 561): clear the result, turn off
    ignore_unknown_objects for the element parses, then loop over the
    tokens. -/
def parseVector {T : Type} (p : List Char → ConfigOptions → Except Status T)
    (sep : Char) (value : List Char) (opts : ConfigOptions) : Except Status (List T) :=
  parseVectorAux p sep opts { opts with ignoreUnknownObjects := false }
    (value.length + 1) value []

/-- Behavior of the Configurable object backing the option-building helpers of
    options_helper.cc.  `κ` is the state of the Configurable produced by
    CFOptionsAsConfigurable / DBOptionsAsConfigurable (configurable.cc is
    outside this snapshot, so the behavior is kept abstract), `T` the options
    record extracted from it. -/
structure CfgOps (κ T : Type) where
  asConfigurable : T → κ
  configureFromMap : κ → List (List Char × List Char) → ConfigOptions → Status × κ
  getOptionsT : κ → T

/-- The ConfigureFromMap<T> helper (options_helper.cc line 510): run the
    configuration on the Configurable and copy its options back into
    `newOpts` only on success. -/
def configureFromMapT (ops : CfgOps κ T) (config : κ)
    (opts : List (List Char × List Char)) (cfg : ConfigOptions) (newOpts : T) :
    Status × T :=
  match ops.configureFromMap config opts cfg with
  | (s, config2) => if s.isOk then (s, ops.getOptionsT config2) else (s, newOpts)

/-- GetColumnFamilyOptionsFromMap (options_helper.cc line 672): copy the base
    into the output up front, then configure a Configurable built from the
    base.  (The `copy` context with ignore_unknown_options=true computed at
    line 679 is unused by the source.) -/
def getColumnFamilyOptionsFromMap (ops : CfgOps κ T) (base : T)
    (optsMap : List (List Char × List Char)) (cfgOptions : ConfigOptions) :
    Status × T :=
  configureFromMapT ops (ops.asConfigurable base) optsMap cfgOptions base

/-- GetColumnFamilyOptionsFromString (options_helper.cc line 701). -/
def getColumnFamilyOptionsFromString (ops : CfgOps κ T) (base : T)
    (optsStr : List Char) (cfgOptions : ConfigOptions) : Status × T :=
  match stringToMap optsStr with
  | .error e => (e, base)
  | .ok m => getColumnFamilyOptionsFromMap ops base m cfgOptions

/-- GetDBOptionsFromMap (options_helper.cc line 726): same shape, with the
    registry cloned into the context copy first. -/
def getDBOptionsFromMap (cloneReg : Nat → Nat) (ops : CfgOps κ T) (base : T)
    (optsMap : List (List Char × List Char)) (cfgOptions : ConfigOptions) :
    Status × T :=
  configureFromMapT ops (ops.asConfigurable base) optsMap
    { cfgOptions with registry := cloneReg cfgOptions.registry } base

/-- GetDBOptionsFromString (options_helper.cc line 753). -/
def getDBOptionsFromString (cloneReg : Nat → Nat) (ops : CfgOps κ T) (base : T)
    (optsStr : List Char) (cfgOptions : ConfigOptions) : Status × T :=
  match stringToMap optsStr with
  | .error e => (e, base)
  | .ok m => getDBOptionsFromMap cloneReg ops base m cfgOptions

/-- A Configurable whose single option group is a flat table of primitive
    fields: field name paired with the stored primitive value. -/
def lookupPV (r : List (List Char × PrimVal)) (k : List Char) : Option PrimVal :=
  (r.find? (fun p => p.1 = k)).map (·.2)

def setFieldVal (r : List (List Char × PrimVal)) (k : List Char) (v : PrimVal) :
    List (List Char × PrimVal) :=
  r.map (fun p => if p.1 = k then (p.1, v) else p)

/-- The descriptor registered for the primitive field `k` of tag `t` of the
    flat record. -/
def primDesc (k : List Char) (t : OptionType) :
    OptTypeInfo (List (List Char × PrimVal)) Unit :=
  { type := t, getPrim := fun r => lookupPV r k,
    setPrim := fun r v => setFieldVal r k v }

/-- Modelled from the spec: Configurable::ConfigureFromMap (configurable.cc,
    outside this snapshot): apply every key of the map through the matching
    descriptor's ParseOption; keys not found in the option group are ignored
    or rejected according to ignore_unknown_options. -/
def configureFromMapModel (m : List (List Char × List Char)) (ctx : ConfigOptions)
    (r : List (List Char × PrimVal)) : Except Status (List (List Char × PrimVal)) :=
  List.foldlM
    (fun rec kv =>
      match lookupPV rec kv.1 with
      | some v0 => parseOption (primDesc kv.1 (tagOfVal v0)) kv.1 kv.2 ctx rec
      | Option.none =>
        if ctx.ignoreUnknownOptions then .ok rec
        else .error (.invalidArgument ("Unrecognized option: ".data ++ kv.1)))
    r m

/-- Modelled from the spec: Configurable::GetOptionString (configurable.cc,
    outside this snapshot): serialize every serializable descriptor of the
    group as name=value pairs joined with the delimiter (here the ';' of a
    valid round-trip context, emitted after each pair as in SerializeStruct). -/
def serializeRecordModel : List (List Char × PrimVal) → List Char
  | [] => []
  | p :: rest =>
    p.1 ++ '=' :: ((serializePrimValue p.2).getD [] ++ ';' :: serializeRecordModel rest)

/-- Default-constructed value of a primitive slot (what a default-constructed
    peer record holds before configuration; composite tags never occur in the
    flat record). -/
def defaultPrim : OptionType → PrimVal
  | .kBoolean => .boolean false
  | .kInt => .intV 0
  | .kInt32T => .int32V 0
  | .kInt64T => .int64V 0
  | .kUInt => .uintV 0
  | .kUInt32T => .uint32V 0
  | .kUInt64T => .uint64V 0
  | .kSizeT => .sizeTV 0
  | .kString => .stringV []
  | .kDouble => .doubleV 0
  | .kCompactionStyle => .compactionStyleV .kCompactionStyleLevel
  | .kCompactionPri => .compactionPriV .kByCompensatedSize
  | .kCompressionType => .compressionTypeV .kNoCompression
  | .kSliceTransform => .sliceTransformV Option.none
  | .kChecksumType => .checksumTypeV .kNoChecksum
  | .kEncodingType => .encodingTypeV .kPlain
  | .kCompactionStopStyle => .compactionStopStyleV .kCompactionStopStyleSimilarSize
  | _ => .boolean false

def defaultPeer (r : List (List Char × PrimVal)) : List (List Char × PrimVal) :=
  r.map (fun p => (p.1, defaultPrim (tagOfVal p.2)))

/-- Modelled from the spec: Configurable::Matches on the flat record:
    structural equality of the group under the tag-wise primitive equality of
    AreOptionsEqual. -/
def matchesRecordModel : List (List Char × PrimVal) → List (List Char × PrimVal) → Bool
  | [], [] => true
  | p :: t, q :: u =>
    p.1 = q.1 && areOptionsEqualT (tagOfVal p.2) p.2 q.2 && matchesRecordModel t u
  | _, _ => false

/-- Well-formed option name: nonempty and free of the grammar characters and
    whitespace. -/
def wfNameP (n : List Char) : Prop :=
  n ≠ [] ∧ ∀ c ∈ n, ¬(c = '=' ∨ c = ';' ∨ c = '{' ∨ c = '}' ∨ isSpaceC c = true)

instance (n : List Char) : Decidable (wfNameP n) := by
  unfold wfNameP; infer_instance

/-- Well-formed flat record: distinct well-formed names, and every field of a
    tag that the AreOptionsEqual switch covers (kSliceTransform options are
    compared by name in the source, not by AreOptionsEqual, so they are
    outside this Matches model). -/
def wfRecordP (r : List (List Char × PrimVal)) : Prop :=
  (r.map (·.1)).Nodup ∧
    ∀ p ∈ r, wfNameP p.1 ∧ tagOfVal p.2 ≠ OptionType.kSliceTransform

instance (r : List (List Char × PrimVal)) : Decidable (wfRecordP r) := by
  unfold wfRecordP; infer_instance

/-- The record used by the S3 scenario: a struct with two integer fields. -/
structure SXY where
  x : Int
  y : Int
deriving DecidableEq, Repr

def descX : OptTypeInfo SXY Unit :=
  { type := .kInt, getPrim := fun s => some (.intV s.x),
    setPrim := fun s v => match v with | .intV i => { s with x := i } | _ => s }

def descY : OptTypeInfo SXY Unit :=
  { type := .kInt, getPrim := fun s => some (.intV s.y),
    setPrim := fun s v => match v with | .intV i => { s with y := i } | _ => s }

def sxyMap : List (List Char × OptTypeInfo SXY Unit) :=
  [("x".data, descX), ("y".data, descY)]

/-- Declarative matching-close-brace predicate used to state the NextToken
    claim: scanning the characters after the opening brace, position `j`
    carries the brace that closes the token iff it holds '}', the running
    nesting depth (which starts at 1) stays positive up to `j`, and reaches
    exactly 1 just before `j`. -/
def braceDelta (l : List Char) : Int :=
  (l.count '{' : Int) - (l.count '}' : Int)

def charDelta (c : Char) : Int :=
  if c = '{' then 1 else if c = '}' then -1 else 0

def matchCloseP (l : List Char) (j : Nat) : Prop :=
  l[j]? = some '}' ∧ braceDelta (l.take j) = 0 ∧
    ∀ k, k ≤ j → 0 < 1 + braceDelta (l.take k)

instance (l : List Char) (j : Nat) : Decidable (matchCloseP l j) := by
  unfold matchCloseP; infer_instance

/-- A Configurable-typed descriptor whose child records the invocation
    context it was configured with (used to observe the context ParseOption
    hands to the recursive configuration call). -/
def c4RecInfo : OptTypeInfo (Option ConfigOptions) ConfigOptions :=
  { type := .kConfigurable, flags := { dontPrepare := true },
    getChild := fun _ => some {},
    setChild := fun _ c => some c,
    childConfigureFromString := fun _ _ c => .ok c }

/-- A descriptor whose custom parse closure records the invocation context it
    receives. -/
def c4ClosureInfo : OptTypeInfo (Option ConfigOptions) Unit :=
  { type := .kUnknown, flags := { dontPrepare := true },
    parserFunc := some (fun _ _ c _ => .ok (some c)) }

/-- Configurable behavior whose configuration always fails (exercises the
    error path of the option-building helpers). -/
def c10Ops : CfgOps Unit Nat :=
  { asConfigurable := fun _ => (),
    configureFromMap := fun _ _ _ => (.invalidArgument "boom".data, ()),
    getOptionsT := fun _ => 99 }

/-- A Configurable-typed descriptor over a record that is just the optional
    child handle; two children match iff they are equal. -/
def c7Info : OptTypeInfo (Option Nat) Nat :=
  { type := .kConfigurable, getChild := fun s => s,
    childMatches := fun a b _ => (a = b, "p".data) }

/-- A deprecated integer descriptor. -/
def c6Info : OptTypeInfo (Option PrimVal) Unit :=
  { type := .kInt, verification := .kDeprecated, getPrim := fun s => s,
    setPrim := fun _ v => some v }

/-- An integer element descriptor for vectors, with the record being the
    element slot itself. -/
def intElemInfo : OptTypeInfo Int Unit :=
  { type := .kInt, getPrim := fun i => some (.intV i),
    setPrim := fun i v => match v with | .intV j => j | _ => i }

/-- Element parse used by ParseVector on an int element: the element's
    ParseOption into a fresh slot. -/
def intElemParse (tok : List Char) (ctx : ConfigOptions) : Except Status Int :=
  parseOption intElemInfo "v".data tok ctx 0

/-- Concrete flat record for the round-trip witness. -/
def c1Rec : List (List Char × PrimVal) :=
  [("a".data, .intV 5), ("b".data, .boolean true),
   ("c".data, .stringV "x=y; z".data),
   ("d".data, .compressionTypeV .kZSTD)]

deriving instance DecidableEq for Except

/-! Theorems. -/

theorem dropWhile_length_le (p : Char → Bool) (l : List Char) :
    (l.dropWhile p).length ≤ l.length := by
  induction l with
  | nil => simp
  | cons c t ih =>
    rw [List.dropWhile_cons]
    by_cases hc : p c
    · simp only [hc, if_true]
      simp only [List.length_cons]
      omega
    · simp [hc]

/-- Claim C5 counterexample: ConfigOptions::Embedded does not disable
    invoke_prepare_options — on a context with the flag set, the embedded
    clone still has it set, contradicting the claim that the produced context
    has prepare hooks suspended. -/
theorem c5_embedded_counterexample :
    (ConfigOptions.Embedded { delimiter := [':'] }).invokePrepareOptions = true ∧
      ¬((ConfigOptions.Embedded { delimiter := [':'] }).invokePrepareOptions = false) :=
  ⟨rfl, by decide⟩

/-- Claim C5 (amended): the context produced by ConfigOptions::Embedded is a
    clone of the invocation context whose delimiter is forced to ";"; every
    other field, including invoke_prepare_options, is unchanged from the
    parent context. -/
theorem c5_embedded_amended (o : ConfigOptions) :
    o.Embedded.delimiter = [';'] ∧
      o.Embedded.inputStringsEscaped = o.inputStringsEscaped ∧
      o.Embedded.ignoreUnknownOptions = o.ignoreUnknownOptions ∧
      o.Embedded.ignoreUnknownObjects = o.ignoreUnknownObjects ∧
      o.Embedded.sanityLevel = o.sanityLevel ∧
      o.Embedded.invokePrepareOptions = o.invokePrepareOptions ∧
      o.Embedded.detailed = o.detailed ∧
      o.Embedded.registry = o.registry ∧
      o.Embedded.env = o.env ∧
      o.Embedded.infoLog = o.infoLog :=
  ⟨rfl, rfl, rfl, rfl, rfl, rfl, rfl, rfl, rfl, rfl⟩

/-- Claim C4 counterexample: on a DontPrepare descriptor of Configurable type
    with no custom parse closure, the recursive ConfigureFromString call into
    the child receives a context whose invoke_prepare_options is still true
    (the source only forces ignore_unknown_options to false; the
    invoke_prepare_options line is commented out at options_helper.cc 923). -/
theorem c4_child_configure_keeps_prepare_counterexample :
    parseOption c4RecInfo "child".data "a=b".data { invokePrepareOptions := true }
        Option.none = .ok (some { ignoreUnknownOptions := false }) ∧
      ¬(({ ignoreUnknownOptions := false } : ConfigOptions).invokePrepareOptions = false) :=
  ⟨rfl, by decide⟩

/-- Claim C4 (amended): for a non-deprecated descriptor carrying DontPrepare,
    ParseOption passes a context clone with invoke_prepare_options=false when
    invoking a custom parse closure; for its recursive configuration call into
    a child Configurable it passes a clone in which only
    ignore_unknown_options is forced to false, the parent's
    invoke_prepare_options being left unchanged. -/
theorem c4_dont_prepare_amended {σ γ : Type} (info : OptTypeInfo σ γ)
    (hdp : info.flags.dontPrepare = true) (hnd : info.IsDeprecated = false)
    (n v : List Char) (ctx : ConfigOptions) (st : σ) :
    (∀ f, info.parserFunc = some f →
        parseOption info n v ctx st =
          f n (if ctx.inputStringsEscaped then unescapeOptionString v else v)
            { ctx with invokePrepareOptions := false } st) ∧
      (({ ctx with ignoreUnknownOptions := false } : ConfigOptions).invokePrepareOptions
          = ctx.invokePrepareOptions) ∧
      (info.parserFunc = Option.none → info.type = .kConfigurable →
        ∀ c, info.getChild st = some c →
          (if ctx.inputStringsEscaped then unescapeOptionString v else v) ≠ [] →
          (findIdxL '=' (if ctx.inputStringsEscaped then unescapeOptionString v else v)).isSome →
          parseOption info n v ctx st =
            match info.childConfigureFromString c
                (if ctx.inputStringsEscaped then unescapeOptionString v else v)
                { ctx with ignoreUnknownOptions := false } with
            | .ok c2 => .ok (info.setChild st c2)
            | .error e => .error e) := by
  refine ⟨?_, rfl, ?_⟩
  · intro f hf
    unfold parseOption
    simp [hnd, hf, hdp]
  · intro hpf htype c hc hne hfind
    unfold parseOption
    simp only [hnd, Bool.false_eq_true, if_false, hpf]
    have hprim : parsePrimValue info.type
        (if ctx.inputStringsEscaped then unescapeOptionString v else v) = .unhandled := by
      rw [htype]; rfl
    rw [hprim]
    have hcfg : info.IsConfigurable = true := by
      unfold OptTypeInfo.IsConfigurable
      simp [htype]
    simp only [hcfg, if_true, hc, hfind, hne]
    simp [hne, hfind]

/-- Claim C4 (amended) witness: the custom-closure half at a concrete
    recording descriptor. -/
theorem c4_dont_prepare_amended_witness :
    parseOption c4ClosureInfo "opt".data "17".data { invokePrepareOptions := true }
        Option.none = .ok (some { invokePrepareOptions := false }) := by
  have h := (c4_dont_prepare_amended c4ClosureInfo rfl rfl "opt".data "17".data
      { invokePrepareOptions := true } Option.none).1
      (fun _ _ c _ => .ok (some c)) rfl
  rw [h]

/-- Claim C8: on a struct with integer fields x and y, applying the single
    option "s.x=7" through ParseStruct sets x to 7 and leaves every other
    field of the record unchanged (the result is exactly the old record with
    x replaced, so y keeps its prior value). -/
theorem c8_struct_field_frame (st : SXY) (ctx : ConfigOptions) :
    parseStruct "s".data sxyMap "s.x".data "7".data ctx st = (.ok, { st with x := 7 }) ∧
      (parseStruct "s".data sxyMap "s.x".data "7".data ctx st).2.y = st.y := by
  obtain ⟨d, ise, iuo, iuob, sl, ipo, det, reg, env, il⟩ := ctx
  cases ise <;> exact ⟨rfl, rfl⟩

/-- Claim C10: error atomicity of the string/map option builders — whenever
    GetColumnFamilyOptionsFromMap/FromString or GetDBOptionsFromMap/FromString
    returns a non-OK status, the output options equal the base options, for
    every behavior of the underlying Configurable. -/
theorem c10_error_atomicity {κ T : Type} (ops : CfgOps κ T) (cloneReg : Nat → Nat)
    (base : T) (m : List (List Char × List Char)) (s : List Char)
    (cfg : ConfigOptions) :
    ((getColumnFamilyOptionsFromMap ops base m cfg).1.isOk = false →
        (getColumnFamilyOptionsFromMap ops base m cfg).2 = base) ∧
      ((getColumnFamilyOptionsFromString ops base s cfg).1.isOk = false →
        (getColumnFamilyOptionsFromString ops base s cfg).2 = base) ∧
      ((getDBOptionsFromMap cloneReg ops base m cfg).1.isOk = false →
        (getDBOptionsFromMap cloneReg ops base m cfg).2 = base) ∧
      ((getDBOptionsFromString cloneReg ops base s cfg).1.isOk = false →
        (getDBOptionsFromString cloneReg ops base s cfg).2 = base) := by
  have hT : ∀ (config : κ) (mm : List (List Char × List Char)) (c : ConfigOptions),
      (configureFromMapT ops config mm c base).1.isOk = false →
      (configureFromMapT ops config mm c base).2 = base := by
    intro config mm c h
    unfold configureFromMapT at *
    rcases hr : ops.configureFromMap config mm c with ⟨s1, k1⟩
    rw [hr] at h
    by_cases hok : s1.isOk
    · simp [hok] at h
    · simp [hok]
  have hmapCF : ∀ (mm : List (List Char × List Char)) (c : ConfigOptions),
      (getColumnFamilyOptionsFromMap ops base mm c).1.isOk = false →
      (getColumnFamilyOptionsFromMap ops base mm c).2 = base := by
    intro mm c h
    exact hT _ _ _ h
  have hmapDB : ∀ (mm : List (List Char × List Char)) (c : ConfigOptions),
      (getDBOptionsFromMap cloneReg ops base mm c).1.isOk = false →
      (getDBOptionsFromMap cloneReg ops base mm c).2 = base := by
    intro mm c h
    exact hT _ _ _ h
  refine ⟨hmapCF m cfg, ?_, hmapDB m cfg, ?_⟩
  · intro h
    unfold getColumnFamilyOptionsFromString at *
    split at h
    · rfl
    · exact hmapCF _ _ h
  · intro h
    unfold getDBOptionsFromString at *
    split at h
    · rfl
    · exact hmapDB _ _ h

/-- Claim C10 witness: a Configurable whose configuration fails leaves the
    base options in the output. -/
theorem c10_error_atomicity_witness :
    (getColumnFamilyOptionsFromMap c10Ops 5 [] {}).1.isOk = false ∧
      (getColumnFamilyOptionsFromMap c10Ops 5 [] {}).2 = 5 :=
  ⟨rfl, (c10_error_atomicity c10Ops id 5 [] [] {}).1 rfl⟩

theorem areOptionsEqualT_config (t : OptionType)
    (ht : t = .kConfigurable ∨ t = .kCustomizable) (v1 v2 : PrimVal) :
    areOptionsEqualT t v1 v2 = false := by
  rcases ht with h | h <;> subst h <;> rfl

theorem areOptionsEqualMaybe_config (t : OptionType)
    (ht : t = .kConfigurable ∨ t = .kCustomizable) (o1 o2 : Option PrimVal) :
    areOptionsEqualMaybe t o1 o2 = false := by
  cases o1 <;> cases o2 <;> simp [areOptionsEqualMaybe, areOptionsEqualT_config t ht]

/-- Claim C7: MatchesOption on a Configurable-typed descriptor (no custom
    equals closure, check enabled): both children null compare equal; exactly
    one null is a mismatch (reported as the option name when the mismatch
    slot was empty); both non-null recurse into the child Matches under a
    context whose sanity level is the minimum of the descriptor's declared
    level and the context's, and a failing recursion reports the dotted path
    option-name '.' failing-child-option. -/
theorem c7_matches_configurable {σ γ : Type} (info : OptTypeInfo σ γ)
    (name : List Char) (a b : σ) (ctx : ConfigOptions) (mm : List Char)
    (htype : info.type = .kConfigurable ∨ info.type = .kCustomizable)
    (heq : info.equalsFunc = Option.none)
    (hchk : ctx.IsCheckEnabled info.GetSanityLevel = true) :
    (info.getChild a = Option.none → info.getChild b = Option.none →
        matchesOption info name a b ctx mm = (true, mm)) ∧
      (∀ c1, info.getChild a = some c1 → info.getChild b = Option.none →
        matchesOption info name a b ctx mm = (false, if mm = [] then name else mm)) ∧
      (∀ c2, info.getChild a = Option.none → info.getChild b = some c2 →
        matchesOption info name a b ctx mm = (false, if mm = [] then name else mm)) ∧
      (∀ c1 c2, info.getChild a = some c1 → info.getChild b = some c2 →
        ((if info.GetSanityLevel < ctx.sanityLevel
            then ({ ctx with sanityLevel := info.GetSanityLevel } : ConfigOptions)
            else ctx).sanityLevel.toNat
          = min info.GetSanityLevel.toNat ctx.sanityLevel.toNat) ∧
        matchesOption info name a b ctx mm =
          (if (info.childMatches c1 c2
                (if info.GetSanityLevel < ctx.sanityLevel
                  then { ctx with sanityLevel := info.GetSanityLevel } else ctx)).1
            then (true, mm)
            else (false, name ++ '.' :: (info.childMatches c1 c2
                (if info.GetSanityLevel < ctx.sanityLevel
                  then { ctx with sanityLevel := info.GetSanityLevel } else ctx)).2))) := by
  have hcfg : info.IsConfigurable = true := by
    unfold OptTypeInfo.IsConfigurable
    rcases htype with h | h <;> simp [h]
  have hmin : (if info.GetSanityLevel < ctx.sanityLevel
      then ({ ctx with sanityLevel := info.GetSanityLevel } : ConfigOptions)
      else ctx).sanityLevel.toNat
      = min info.GetSanityLevel.toNat ctx.sanityLevel.toNat := by
    by_cases hlt : info.GetSanityLevel < ctx.sanityLevel
    · have : info.GetSanityLevel.toNat < ctx.sanityLevel.toNat := hlt
      simp only [hlt, if_true]
      omega
    · have : ¬info.GetSanityLevel.toNat < ctx.sanityLevel.toNat := hlt
      simp only [hlt, if_false]
      omega
  refine ⟨?_, ?_, ?_, ?_⟩
  · intro ha hb
    unfold matchesOption
    simp [hchk, heq, areOptionsEqualMaybe_config info.type htype, hcfg, ha, hb]
  · intro c1 ha hb
    unfold matchesOption
    simp [hchk, heq, areOptionsEqualMaybe_config info.type htype, hcfg, ha, hb]
  · intro c2 ha hb
    unfold matchesOption
    simp [hchk, heq, areOptionsEqualMaybe_config info.type htype, hcfg, ha, hb]
  · intro c1 c2 ha hb
    refine ⟨hmin, ?_⟩
    unfold matchesOption
    simp [hchk, heq, areOptionsEqualMaybe_config info.type htype, hcfg, ha, hb]

/-- Claim C7 witness: two distinct non-null children under the recorder
    descriptor produce a mismatch with the dotted path. -/
theorem c7_matches_configurable_witness :
    matchesOption c7Info "n".data (some 1) (some 2) {} [] = (false, "n.p".data) := by
  have h := (c7_matches_configurable c7Info "n".data (some 1) (some 2) {} []
      (Or.inl rfl) rfl (by decide)).2.2.2 1 2 rfl rfl
  rw [h.2]
  rfl

/-- Claim C6: a Deprecated or Alias descriptor is never serialized
    (ShouldSerialize is false and the whole-struct serialization loop skips
    it) and never participates in equality (its effective sanity level is
    None, no context enables the check, MatchesOption reports a match, and
    MatchesOptionsTypeFromMap skips the entry). -/
theorem c6_deprecated_alias_excluded {σ γ : Type} (info : OptTypeInfo σ γ)
    (hda : info.verification = .kDeprecated ∨ info.verification = .kAlias) :
    info.ShouldSerialize = false ∧
      info.GetSanityLevel = .sanityNone ∧
      (∀ ctx : ConfigOptions, ctx.IsCheckEnabled info.GetSanityLevel = false) ∧
      (∀ (name : List Char) (a b : σ) (ctx : ConfigOptions) (mm : List Char),
        matchesOption info name a b ctx mm = (true, mm)) ∧
      (∀ (t1 t2 : List (List Char × OptTypeInfo σ γ)) (name : List Char) (st : σ)
          (emb : ConfigOptions),
        serializeStructLoop (t1 ++ (name, info) :: t2) st emb =
          serializeStructLoop (t1 ++ t2) st emb) ∧
      (∀ (t1 t2 : List (List Char × OptTypeInfo σ γ)) (name : List Char) (a b : σ)
          (ctx : ConfigOptions) (mm : List Char),
        matchesOptionsTypeFromMap (t1 ++ (name, info) :: t2) a b ctx mm =
          matchesOptionsTypeFromMap (t1 ++ t2) a b ctx mm) := by
  have hdep : (info.IsDeprecated ∨ info.IsAlias : Prop) := by
    rcases hda with h | h
    · exact Or.inl (by simp [OptTypeInfo.IsDeprecated, h])
    · exact Or.inr (by simp [OptTypeInfo.IsAlias, h])
  have hss : info.ShouldSerialize = false := by
    unfold OptTypeInfo.ShouldSerialize
    simp [hdep]
  have hsl : info.GetSanityLevel = .sanityNone := by
    unfold OptTypeInfo.GetSanityLevel
    simp [hdep]
  have hchk : ∀ ctx : ConfigOptions, ctx.IsCheckEnabled info.GetSanityLevel = false := by
    intro ctx
    rw [hsl]
    unfold ConfigOptions.IsCheckEnabled
    simp
  have hmatch : ∀ (name : List Char) (a b : σ) (ctx : ConfigOptions) (mm : List Char),
      matchesOption info name a b ctx mm = (true, mm) := by
    intro name a b ctx mm
    unfold matchesOption
    simp [hchk ctx]
  refine ⟨hss, hsl, hchk, hmatch, ?_, ?_⟩
  · intro t1 t2 name st emb
    induction t1 with
    | nil => simp [serializeStructLoop, hss]
    | cons p rest ih => simp [serializeStructLoop, ih]
  · intro t1 t2 name a b ctx mm
    induction t1 generalizing mm with
    | nil => simp [matchesOptionsTypeFromMap, hchk ctx]
    | cons p rest ih =>
      simp only [List.cons_append, matchesOptionsTypeFromMap]
      by_cases hc : ctx.IsCheckEnabled p.2.GetSanityLevel
      · simp only [hc, if_true]
        split
        · rfl
        · exact ih _
      · simp only [hc, if_false]
        exact ih _

/-- Claim C6 witness: the concrete deprecated integer descriptor. -/
theorem c6_deprecated_alias_excluded_witness :
    c6Info.ShouldSerialize = false ∧
      c6Info.GetSanityLevel = .sanityNone ∧
      (∀ ctx : ConfigOptions, ctx.IsCheckEnabled c6Info.GetSanityLevel = false) ∧
      (∀ (name : List Char) (a b : Option PrimVal) (ctx : ConfigOptions) (mm : List Char),
        matchesOption c6Info name a b ctx mm = (true, mm)) ∧
      (∀ (t1 t2 : List (List Char × OptTypeInfo (Option PrimVal) Unit)) (name : List Char)
          (st : Option PrimVal) (emb : ConfigOptions),
        serializeStructLoop (t1 ++ (name, c6Info) :: t2) st emb =
          serializeStructLoop (t1 ++ t2) st emb) ∧
      (∀ (t1 t2 : List (List Char × OptTypeInfo (Option PrimVal) Unit)) (name : List Char)
          (a b : Option PrimVal) (ctx : ConfigOptions) (mm : List Char),
        matchesOptionsTypeFromMap (t1 ++ (name, c6Info) :: t2) a b ctx mm =
          matchesOptionsTypeFromMap (t1 ++ t2) a b ctx mm) :=
  c6_deprecated_alias_excluded c6Info (Or.inl rfl)

theorem dropWhile_append_all {p : Char → Bool} {ws : List Char}
    (h : ∀ c ∈ ws, p c = true) (l : List Char) :
    (ws ++ l).dropWhile p = l.dropWhile p := by
  induction ws with
  | nil => rfl
  | cons c t ih =>
    have hc : p c = true := h c (List.mem_cons_self c t)
    simp only [List.cons_append, List.dropWhile_cons, hc, if_true]
    exact ih (fun d hd => h d (List.mem_cons_of_mem c hd))

theorem dropWhile_all_nil {p : Char → Bool} {ws : List Char}
    (h : ∀ c ∈ ws, p c = true) : ws.dropWhile p = [] := by
  have := dropWhile_append_all h ([] : List Char)
  simpa using this

theorem dropWhile_append_of_ne_nil {p : Char → Bool} {l : List Char}
    (h : l.dropWhile p ≠ []) (ws : List Char) :
    (l ++ ws).dropWhile p = l.dropWhile p ++ ws := by
  induction l with
  | nil => simp at h
  | cons c t ih =>
    by_cases hc : p c
    · simp only [List.dropWhile_cons, hc, if_true] at h ⊢
      simp only [List.cons_append, List.dropWhile_cons, hc, if_true]
      exact ih h
    · simp only [List.cons_append, List.dropWhile_cons, hc, if_false]
      simp [List.dropWhile_cons, hc]

theorem trimL_append_left {ws l : List Char} (h : ∀ c ∈ ws, isSpaceC c = true) :
    trimL (ws ++ l) = trimL l := by
  unfold trimL
  rw [dropWhile_append_all h]

theorem dropWhile_nil_all {p : Char → Bool} :
    ∀ {l : List Char}, l.dropWhile p = [] → ∀ c ∈ l, p c = true := by
  intro l
  induction l with
  | nil => intro _ c hc; simp at hc
  | cons a t ih =>
    intro hd c hc
    by_cases ha : p a
    · simp only [List.dropWhile_cons, ha, if_true] at hd
      rcases List.mem_cons.mp hc with rfl | hct
      · exact ha
      · exact ih hd c hct
    · simp [List.dropWhile_cons, ha] at hd

theorem trimL_append_right {ws l : List Char} (h : ∀ c ∈ ws, isSpaceC c = true) :
    trimL (l ++ ws) = trimL l := by
  unfold trimL
  by_cases hd : l.dropWhile isSpaceC = []
  · have hall : ∀ c ∈ l, isSpaceC c = true := dropWhile_nil_all hd
    have hboth : (l ++ ws).dropWhile isSpaceC = [] := by
      apply dropWhile_all_nil
      intro c hc
      rcases List.mem_append.mp hc with h1 | h2
      · exact hall c h1
      · exact h c h2
    rw [hd, hboth]
  · rw [dropWhile_append_of_ne_nil hd]
    rw [List.reverse_append]
    rw [dropWhile_append_all (fun c hc => h c (List.mem_reverse.mp hc))]

theorem trimL_length_le (s : List Char) : (trimL s).length ≤ s.length := by
  unfold trimL
  calc ((s.dropWhile isSpaceC).reverse.dropWhile isSpaceC).reverse.length
      = ((s.dropWhile isSpaceC).reverse.dropWhile isSpaceC).length := List.length_reverse _
    _ ≤ (s.dropWhile isSpaceC).reverse.length := dropWhile_length_le _ _
    _ = (s.dropWhile isSpaceC).length := List.length_reverse _
    _ ≤ s.length := dropWhile_length_le _ _

theorem peelAux_congr : ∀ (f1 f2 : Nat) (s : List Char),
    s.length < f1 → s.length < f2 → peelAux f1 s = peelAux f2 s := by
  intro f1
  induction f1 with
  | zero => intro f2 s h1 _; omega
  | succ a ih =>
    intro f2 s h1 h2
    cases f2 with
    | zero => omega
    | succ b =>
      by_cases hcond : 2 < s.length ∧ s.head? = some '{' ∧ s.getLast? = some '}'
      · rw [peelAux, peelAux, if_pos hcond, if_pos hcond]
        have h3 : (trimL (s.drop 1).dropLast).length ≤ s.length - 2 := by
          calc (trimL (s.drop 1).dropLast).length
              ≤ (s.drop 1).dropLast.length := trimL_length_le _
            _ = (s.drop 1).length - 1 := List.length_dropLast _
            _ = s.length - 1 - 1 := by rw [List.length_drop]
            _ = s.length - 2 := by omega
        exact ih b _ (by omega) (by omega)
      · rw [peelAux, peelAux, if_neg hcond, if_neg hcond]

theorem findIdxL_eq_none {ch : Char} {l : List Char} (h : ∀ c ∈ l, ¬(c = ch)) :
    findIdxL ch l = Option.none := by
  induction l with
  | nil => rfl
  | cons c t ih =>
    unfold findIdxL
    rw [if_neg (h c (List.mem_cons_self c t))]
    rw [ih (fun d hd => h d (List.mem_cons_of_mem c hd))]
    rfl

/-- Claim C2 counterexample: brace-layer peeling changes the result on the
    input "{}" — StringToMap("") succeeds with the empty map while
    StringToMap("{}") fails, because the peeling loop requires the string to
    be longer than two characters. -/
theorem c2_brace_peel_counterexample :
    stringToMap "".data = .ok [] ∧
      stringToMap "{}".data =
        .error (.invalidArgument "Mismatched key value pair, '=' expected".data) ∧
      ¬(stringToMap ('{' :: (([] : List Char) ++ ['}'])) = stringToMap ([] : List Char)) :=
  ⟨rfl, rfl, by decide⟩

/-- Claim C2 (amended): StringToMap trims the input; a matched outer brace
    layer around a trimmed nonempty string is peeled without changing the
    resulting map (the peel requires the enclosed string to be longer than
    two characters, so the bare pair of braces is not peeled and fails with
    InvalidArgument); outer whitespace never changes the result; a nonempty
    remainder without '=' fails with InvalidArgument, and an empty key fails
    with InvalidArgument. -/
theorem c2_string_to_map_amended :
    (∀ (input ws ws' : List Char), (∀ c ∈ ws, isSpaceC c = true) →
        (∀ c ∈ ws', isSpaceC c = true) →
        stringToMap (ws ++ input ++ ws') = stringToMap input) ∧
      (∀ t : List Char, trimL t = t → t ≠ [] →
        stringToMap ('{' :: (t ++ ['}'])) = stringToMap t) ∧
      (∀ (input t : List Char), t = peelBraces (trimL input) → t ≠ [] →
        (∀ c ∈ t, ¬(c = '=')) →
        stringToMap input =
          .error (.invalidArgument "Mismatched key value pair, '=' expected".data)) ∧
      (∀ (input t : List Char) (i : Nat), t = peelBraces (trimL input) →
        findIdxL '=' t = some i → trimL (t.take i) = [] →
        stringToMap input = .error (.invalidArgument "Empty key found".data)) := by
  refine ⟨?_, ?_, ?_, ?_⟩
  · intro input ws ws' hws hws'
    unfold stringToMap
    rw [show ws ++ input ++ ws' = ws ++ (input ++ ws') by simp]
    rw [trimL_append_left hws, trimL_append_right hws']
  · intro t ht hne
    unfold stringToMap
    have hpos : 0 < t.length := List.length_pos.mpr hne
    have hw : trimL ('{' :: (t ++ ['}'])) = '{' :: (t ++ ['}']) := by
      unfold trimL
      have h1 : ('{' :: (t ++ ['}'])).dropWhile isSpaceC = '{' :: (t ++ ['}']) := by
        rw [List.dropWhile_cons]
        simp [isSpaceC]
      rw [h1]
      have h2 : ('{' :: (t ++ ['}'])).reverse = '}' :: (t.reverse ++ ['{']) := by
        rw [← List.cons_append, List.reverse_append, List.reverse_cons]
        simp
      rw [h2, List.dropWhile_cons]
      rw [if_neg (by decide : ¬(isSpaceC '}' = true))]
      rw [← h2, List.reverse_reverse]
    rw [hw]
    have hpw : peelBraces ('{' :: (t ++ ['}'])) = peelBraces (trimL t) := by
      unfold peelBraces
      have hlen : ('{' :: (t ++ ['}'])).length = t.length + 2 := by simp
      rw [hlen]
      rw [peelAux]
      have hcond : 2 < ('{' :: (t ++ ['}'])).length ∧
          ('{' :: (t ++ ['}'])).head? = some '{' ∧
          ('{' :: (t ++ ['}'])).getLast? = some '}' := by
        refine ⟨?_, rfl, ?_⟩
        · rw [hlen]; omega
        · rw [← List.cons_append]
          exact List.getLast?_concat _
      rw [if_pos hcond]
      have hdrop : ('{' :: (t ++ ['}'])).drop 1 = t ++ ['}'] := rfl
      rw [hdrop, List.dropLast_concat, ht]
      exact peelAux_congr _ _ t (by omega) (by omega)
    rw [hpw]
  · intro input t htdef hne hnoeq
    unfold stringToMap
    rw [← htdef]
    rw [stmGoAux]
    rw [if_neg hne, findIdxL_eq_none hnoeq]
  · intro input t i htdef hfind hkey
    unfold stringToMap
    rw [← htdef]
    rw [stmGoAux]
    have hne : t ≠ [] := by
      intro h
      rw [h] at hfind
      simp [findIdxL] at hfind
    rw [if_neg hne, hfind]
    simp only [hkey]
    rfl

/-- Claim C2 (amended) witness: one brace layer around a concrete pair is
    peeled; the missing-'=' and empty-key errors fire on concrete inputs. -/
theorem c2_string_to_map_amended_witness :
    stringToMap ('{' :: ("a=1".data ++ ['}'])) = stringToMap "a=1".data ∧
      stringToMap "xyz".data =
        .error (.invalidArgument "Mismatched key value pair, '=' expected".data) ∧
      stringToMap " = 1".data = .error (.invalidArgument "Empty key found".data) :=
  ⟨(c2_string_to_map_amended.2.1 "a=1".data (by decide) (by decide)),
   (c2_string_to_map_amended.2.2.1 "xyz".data "xyz".data (by decide) (by decide) (by decide)),
   (c2_string_to_map_amended.2.2.2 " = 1".data "= 1".data 0 (by decide) (by decide) (by decide))⟩

theorem takeWhile_length_le (p : Char → Bool) (l : List Char) :
    (l.takeWhile p).length ≤ l.length := by
  induction l with
  | nil => simp
  | cons c t ih =>
    rw [List.takeWhile_cons]
    by_cases hc : p c
    · simp only [hc, if_true, List.length_cons]
      omega
    · simp [hc]

theorem takeWhile_append_neg {p : Char → Bool} {c : Char} (hc : ¬(p c = true))
    (l : List Char) : ((l ++ [c]).takeWhile p) = l.takeWhile p := by
  induction l with
  | nil => simp [List.takeWhile_cons, hc]
  | cons a t ih =>
    rw [List.cons_append, List.takeWhile_cons, List.takeWhile_cons]
    by_cases ha : p a
    · simp only [ha, if_true]
      rw [ih]
    · simp [ha]

theorem take_append_le {n : Nat} {l : List Char} (h : n ≤ l.length) (r : List Char) :
    (l ++ r).take n = l.take n := by
  induction l generalizing n with
  | nil =>
    have : n = 0 := by simpa using h
    simp [this]
  | cons c t ih =>
    cases n with
    | zero => simp
    | succ m =>
      simp only [List.cons_append, List.take_succ_cons]
      rw [ih (by simpa using h)]

theorem drop_append_le {n : Nat} {l : List Char} (h : n ≤ l.length) (r : List Char) :
    (l ++ r).drop n = l.drop n ++ r := by
  induction l generalizing n with
  | nil =>
    have : n = 0 := by simpa using h
    simp [this]
  | cons c t ih =>
    cases n with
    | zero => simp
    | succ m =>
      simp only [List.cons_append, List.drop_succ_cons]
      exact ih (by simpa using h)

theorem getD_append_left {n : Nat} {l : List Char} (h : n < l.length)
    (r : List Char) (d : Char) : (l ++ r).getD n d = l.getD n d := by
  induction l generalizing n with
  | nil => simp at h
  | cons c t ih =>
    cases n with
    | zero => rfl
    | succ m =>
      simp only [List.cons_append, List.getD_cons_succ]
      exact ih (by simpa using h)

theorem getD_append_length {l : List Char} (x : Char) (r : List Char) (d : Char) :
    (l ++ x :: r).getD l.length d = x := by
  induction l with
  | nil => rfl
  | cons c t ih =>
    simp only [List.cons_append, List.length_cons, List.getD_cons_succ]
    exact ih

theorem getD_drop (l : List Char) : ∀ (n k : Nat) (d : Char),
    (l.drop n).getD k d = l.getD (n + k) d := by
  induction l with
  | nil => intro n k d; simp
  | cons c t ih =>
    intro n k d
    cases n with
    | zero => simp
    | succ m =>
      simp only [List.drop_succ_cons]
      rw [ih m k d]
      have : m + 1 + k = (m + k) + 1 := by omega
      rw [this, List.getD_cons_succ]

theorem getLast?_cons_of_ne_nil {t : List Char} (h : t ≠ []) (c : Char) :
    (c :: t).getLast? = t.getLast? := by
  cases t with
  | nil => exact absurd rfl h
  | cons a t2 => exact List.getLast?_cons_cons

theorem getLast?_drop {l : List Char} : ∀ {n : Nat}, l.drop n ≠ [] →
    (l.drop n).getLast? = l.getLast? := by
  induction l with
  | nil => intro n h; simp at h
  | cons c t ih =>
    intro n h
    cases n with
    | zero => rfl
    | succ m =>
      simp only [List.drop_succ_cons] at h ⊢
      rw [ih h]
      exact (getLast?_cons_of_ne_nil (by
        intro ht; rw [ht] at h; simp at h) c).symm

theorem getLast?_eq_getD {l : List Char} (h : l ≠ []) (d : Char) :
    l.getLast? = some (l.getD (l.length - 1) d) := by
  induction l with
  | nil => exact absurd rfl h
  | cons c t ih =>
    cases ht : t with
    | nil => subst ht; rfl
    | cons a t2 =>
      subst ht
      have htne : (a :: t2) ≠ [] := by simp
      rw [getLast?_cons_of_ne_nil htne c, ih htne]
      simp

theorem findIdxL_some_lt {ch : Char} : ∀ {l : List Char} {i : Nat},
    findIdxL ch l = some i → i < l.length := by
  intro l
  induction l with
  | nil => intro i h; simp [findIdxL] at h
  | cons c t ih =>
    intro i h
    unfold findIdxL at h
    by_cases hc : c = ch
    · rw [if_pos hc] at h
      simp at h
      simp [← h]
    · rw [if_neg hc] at h
      cases hf : findIdxL ch t with
      | none => rw [hf] at h; simp at h
      | some j =>
        rw [hf] at h
        simp at h
        have := ih hf
        simp [← h]
        omega

theorem findIdxL_some_getD {ch d : Char} : ∀ {l : List Char} {i : Nat},
    findIdxL ch l = some i → l.getD i d = ch := by
  intro l
  induction l with
  | nil => intro i h; simp [findIdxL] at h
  | cons c t ih =>
    intro i h
    unfold findIdxL at h
    by_cases hc : c = ch
    · rw [if_pos hc] at h
      simp at h
      rw [← h]
      simpa using hc
    · rw [if_neg hc] at h
      cases hf : findIdxL ch t with
      | none => rw [hf] at h; simp at h
      | some j =>
        rw [hf] at h
        simp at h
        rw [← h]
        simpa using ih hf

theorem findIdxL_append_of_some {ch : Char} {l : List Char} {i : Nat}
    (h : findIdxL ch l = some i) (r : List Char) :
    findIdxL ch (l ++ r) = some i := by
  induction l generalizing i with
  | nil => simp [findIdxL] at h
  | cons c t ih =>
    rw [List.cons_append]
    unfold findIdxL at h ⊢
    by_cases hc : c = ch
    · rw [if_pos hc] at h ⊢
      exact h
    · rw [if_neg hc] at h ⊢
      cases hf : findIdxL ch t with
      | none => rw [hf] at h; simp at h
      | some j =>
        rw [hf] at h
        rw [ih hf]
        exact h

theorem findIdxL_append_none_self {ch : Char} {l : List Char}
    (h : findIdxL ch l = Option.none) :
    findIdxL ch (l ++ [ch]) = some l.length := by
  induction l with
  | nil => simp [findIdxL]
  | cons c t ih =>
    rw [List.cons_append]
    unfold findIdxL at h ⊢
    by_cases hc : c = ch
    · rw [if_pos hc] at h
      simp at h
    · rw [if_neg hc] at h ⊢
      cases hf : findIdxL ch t with
      | none =>
        rw [ih hf]
        simp
      | some j => rw [hf] at h; simp at h

theorem findClose_some_lt : ∀ {l : List Char} {cnt b : Nat},
    findClose l cnt = some b → b < l.length := by
  intro l
  induction l with
  | nil => intro cnt b h; simp [findClose] at h
  | cons c t ih =>
    intro cnt b h
    unfold findClose at h
    by_cases h1 : c = '{'
    · rw [if_pos h1] at h
      cases hf : findClose t (cnt + 1) with
      | none => rw [hf] at h; simp at h
      | some j =>
        rw [hf] at h; simp at h
        have := ih hf
        simp [← h]
        omega
    · rw [if_neg h1] at h
      by_cases h2 : c = '}'
      · rw [if_pos h2] at h
        by_cases h3 : cnt = 1
        · rw [if_pos h3] at h
          simp at h
          simp [← h]
        · rw [if_neg h3] at h
          cases hf : findClose t (cnt - 1) with
          | none => rw [hf] at h; simp at h
          | some j =>
            rw [hf] at h; simp at h
            have := ih hf
            simp [← h]
            omega
      · rw [if_neg h2] at h
        cases hf : findClose t cnt with
        | none => rw [hf] at h; simp at h
        | some j =>
          rw [hf] at h; simp at h
          have := ih hf
          simp [← h]
          omega

theorem findClose_append_nonbrace {c : Char} (h1 : ¬(c = '{')) (h2 : ¬(c = '}')) :
    ∀ (l : List Char) (cnt : Nat), findClose (l ++ [c]) cnt = findClose l cnt := by
  intro l
  induction l with
  | nil =>
    intro cnt
    simp only [List.nil_append]
    unfold findClose
    rw [if_neg h1, if_neg h2]
    rfl
  | cons a t ih =>
    intro cnt
    simp only [List.cons_append]
    unfold findClose
    by_cases ha1 : a = '{'
    · rw [if_pos ha1, if_pos ha1, ih]
    · rw [if_neg ha1, if_neg ha1]
      by_cases ha2 : a = '}'
      · rw [if_pos ha2, if_pos ha2]
        by_cases hc : cnt = 1
        · rw [if_pos hc, if_pos hc]
        · rw [if_neg hc, if_neg hc, ih]
      · rw [if_neg ha2, if_neg ha2, ih]

theorem nextTokenCore_of_drop_nil {s : List Char} (delim : Char)
    (h : s.drop (s.takeWhile isSpaceC).length = []) :
    nextTokenCore s delim = .ok ([], Option.none) := by
  unfold nextTokenCore
  rw [h]

theorem nextTokenCore_of_drop_cons {s : List Char} (delim : Char) {c : Char}
    {tail : List Char} (h : s.drop (s.takeWhile isSpaceC).length = c :: tail) :
    nextTokenCore s delim =
      (if c = '{' then nextTokenBrace (s.takeWhile isSpaceC).length tail delim
       else
        match findIdxL delim (c :: tail) with
        | Option.none => .ok (trimL (c :: tail), Option.none)
        | some i =>
          .ok (trimL ((c :: tail).take i), some ((s.takeWhile isSpaceC).length + i))) := by
  unfold nextTokenCore
  rw [h]

/-- Appending one non-space, non-brace separator to a nonempty scan suffix:
    errors and delimiter-terminated tokens are unchanged, and an
    end-of-input-terminated token turns into the same token terminated at the
    appended separator. -/
theorem nextTokenCore_append_sep (rem : List Char) (sep : Char)
    (hs1 : ¬(isSpaceC sep = true)) (hs2 : ¬(sep = '{')) (hs3 : ¬(sep = '}')) :
    (∀ s, nextTokenCore rem sep = .error s → nextTokenCore (rem ++ [sep]) sep = .error s) ∧
      (∀ t e, nextTokenCore rem sep = .ok (t, some e) →
        nextTokenCore (rem ++ [sep]) sep = .ok (t, some e) ∧ e ≤ rem.length ∧
          (e < rem.length → rem.getD e ' ' = sep)) ∧
      (∀ t, nextTokenCore rem sep = .ok (t, Option.none) →
        nextTokenCore (rem ++ [sep]) sep = .ok (t, some rem.length)) := by
  have htw : ((rem ++ [sep]).takeWhile isSpaceC) = rem.takeWhile isSpaceC :=
    takeWhile_append_neg hs1 rem
  have hjle : (rem.takeWhile isSpaceC).length ≤ rem.length := takeWhile_length_le _ _
  have hdropext : (rem ++ [sep]).drop (rem.takeWhile isSpaceC).length =
      rem.drop (rem.takeWhile isSpaceC).length ++ [sep] := drop_append_le hjle [sep]
  cases hr : rem.drop (rem.takeWhile isSpaceC).length with
  | nil =>
    have hjeq : (rem.takeWhile isSpaceC).length = rem.length := by
      have := List.drop_eq_nil_iff.mp hr
      omega
    have hext : nextTokenCore (rem ++ [sep]) sep = .ok ([], some rem.length) := by
      have h2 : (rem ++ [sep]).drop ((rem ++ [sep]).takeWhile isSpaceC).length = [sep] := by
        rw [htw, hdropext, hr]
        rfl
      rw [nextTokenCore_of_drop_cons sep h2, if_neg hs2]
      have hfi : findIdxL sep ([] : List Char) = Option.none := rfl
      rw [show ([sep] : List Char) = sep :: [] from rfl]
      unfold findIdxL
      rw [if_pos rfl]
      dsimp only
      rw [htw, hjeq]
      rfl
    have hold : nextTokenCore rem sep = .ok ([], Option.none) :=
      nextTokenCore_of_drop_nil sep hr
    refine ⟨?_, ?_, ?_⟩
    · intro s h
      rw [hold] at h
      simp at h
    · intro t e h
      rw [hold] at h
      simp at h
    · intro t h
      rw [hold] at h
      simp at h
      subst h
      exact hext
  | cons c tail =>
    have h2 : (rem ++ [sep]).drop ((rem ++ [sep]).takeWhile isSpaceC).length =
        c :: (tail ++ [sep]) := by
      rw [htw, hdropext, hr]
      rfl
    have hlen2 : rem.length = (rem.takeWhile isSpaceC).length + 1 + tail.length := by
      have := congrArg List.length hr
      simp at this
      omega
    rw [nextTokenCore_of_drop_cons sep hr, nextTokenCore_of_drop_cons sep h2, htw]
    by_cases hc : c = '{'
    · rw [if_pos hc, if_pos hc]
      unfold nextTokenBrace
      rw [findClose_append_nonbrace hs2 hs3 tail 1]
      cases hfc : findClose tail 1 with
      | none =>
        dsimp only
        exact ⟨fun s h => h, fun t e h => by simp at h, fun t h => by simp at h⟩
      | some b =>
        dsimp only
        have hblt : b < tail.length := findClose_some_lt hfc
        have htake : (tail ++ [sep]).take b = tail.take b := take_append_le (by omega) [sep]
        have hdropb : (tail ++ [sep]).drop (b + 1) = tail.drop (b + 1) ++ [sep] :=
          drop_append_le (by omega) [sep]
        have htwk : ((tail.drop (b + 1) ++ [sep]).takeWhile isSpaceC) =
            (tail.drop (b + 1)).takeWhile isSpaceC := takeWhile_append_neg hs1 _
        have hklen : ((tail.drop (b + 1)).takeWhile isSpaceC).length ≤
            (tail.drop (b + 1)).length := takeWhile_length_le _ _
        have hdlen : (tail.drop (b + 1)).length = tail.length - (b + 1) :=
          List.length_drop _ _
        rw [htake, hdropb, htwk]
        by_cases hk : ((tail.drop (b + 1)).takeWhile isSpaceC).length <
            (tail.drop (b + 1)).length
        · have hgd : (tail.drop (b + 1) ++ [sep]).getD
              ((tail.drop (b + 1)).takeWhile isSpaceC).length ' ' =
              (tail.drop (b + 1)).getD ((tail.drop (b + 1)).takeWhile isSpaceC).length ' ' :=
            getD_append_left hk [sep] ' '
          have hkext : ((tail.drop (b + 1)).takeWhile isSpaceC).length <
              (tail.drop (b + 1) ++ [sep]).length := by
            simp only [List.length_append, List.length_cons, List.length_nil]
            omega
          by_cases hd : (tail.drop (b + 1)).getD
              ((tail.drop (b + 1)).takeWhile isSpaceC).length ' ' ≠ sep
          · rw [if_pos ⟨hk, hd⟩, if_pos ⟨hkext, by rw [hgd]; exact hd⟩]
            exact ⟨fun s h => h, fun t e h => by simp at h, fun t h => by simp at h⟩
          · rw [if_neg (by intro hcon; exact hd hcon.2),
              if_neg (by intro hcon; rw [hgd] at hcon; exact hd hcon.2)]
            push_neg at hd
            refine ⟨?_, ?_, ?_⟩
            · intro s h
              simp at h
            · intro t e h
              have h3 : trimL (tail.take b) = t ∧
                  (rem.takeWhile isSpaceC).length + 1 + (b + 1) +
                    ((tail.drop (b + 1)).takeWhile isSpaceC).length = e := by
                have := h
                simp at this
                exact this
              refine ⟨h, by omega, ?_⟩
              intro _
              have he : e = (rem.takeWhile isSpaceC).length + (1 + ((b + 1) +
                  ((tail.drop (b + 1)).takeWhile isSpaceC).length)) := by omega
              rw [he, ← getD_drop rem, hr]
              rw [show (1 + ((b + 1) + ((tail.drop (b + 1)).takeWhile isSpaceC).length)) =
                  ((b + 1) + ((tail.drop (b + 1)).takeWhile isSpaceC).length) + 1
                  from by omega]
              rw [List.getD_cons_succ, ← getD_drop tail]
              exact hd
            · intro t h
              simp at h
        · have hkeq : ((tail.drop (b + 1)).takeWhile isSpaceC).length =
              (tail.drop (b + 1)).length := by omega
          have hkext : ((tail.drop (b + 1)).takeWhile isSpaceC).length <
              (tail.drop (b + 1) ++ [sep]).length := by
            simp only [List.length_append, List.length_cons, List.length_nil]
            omega
          have hgd : (tail.drop (b + 1) ++ [sep]).getD
              ((tail.drop (b + 1)).takeWhile isSpaceC).length ' ' = sep := by
            rw [hkeq]
            exact getD_append_length sep [] ' '
          rw [if_neg (by intro hcon; exact absurd hcon.1 hk),
            if_neg (by intro hcon; exact hcon.2 hgd)]
          refine ⟨?_, ?_, ?_⟩
          · intro s h
            simp at h
          · intro t e h
            have h3 : trimL (tail.take b) = t ∧
                (rem.takeWhile isSpaceC).length + 1 + (b + 1) +
                  ((tail.drop (b + 1)).takeWhile isSpaceC).length = e := by
              have := h
              simp at this
              exact this
            exact ⟨h, by omega, fun hlt => by omega⟩
          · intro t h
            simp at h
    · rw [if_neg hc, if_neg hc]
      rw [show c :: (tail ++ [sep]) = (c :: tail) ++ [sep] from rfl]
      cases hfi : findIdxL sep (c :: tail) with
      | some i =>
        have hilt : i < (c :: tail).length := findIdxL_some_lt hfi
        rw [findIdxL_append_of_some hfi [sep]]
        dsimp only
        have htake : ((c :: tail) ++ [sep]).take i = (c :: tail).take i :=
          take_append_le (by omega) [sep]
        rw [htake]
        refine ⟨?_, ?_, ?_⟩
        · intro s h
          simp at h
        · intro t e h
          have h3 : trimL ((c :: tail).take i) = t ∧
              (rem.takeWhile isSpaceC).length + i = e := by
            have := h
            simp at this
            exact this
          refine ⟨h, ?_, ?_⟩
          · simp only [List.length_cons] at hilt
            omega
          · intro _
            have he : e = (rem.takeWhile isSpaceC).length + i := by omega
            rw [he, ← getD_drop rem, hr]
            exact findIdxL_some_getD hfi
        · intro t h
          simp at h
      | none =>
        rw [findIdxL_append_none_self hfi]
        dsimp only
        have htake : ((c :: tail) ++ [sep]).take (c :: tail).length = c :: tail :=
          (take_append_le (by omega) [sep]).trans (List.take_length (c :: tail))
        rw [htake]
        refine ⟨?_, ?_, ?_⟩
        · intro s h
          simp at h
        · intro t e h
          simp at h
        · intro t h
          have h3 : trimL (c :: tail) = t := by
            have := h
            simp at this
            exact this
          rw [← h3]
          have hfin : (rem.takeWhile isSpaceC).length + (c :: tail).length = rem.length := by
            simp only [List.length_cons]
            omega
          rw [hfin]

theorem parseVectorAux_nil {T : Type} (p : List Char → ConfigOptions → Except Status T)
    (sep : Char) (opts copy : ConfigOptions) (f : Nat) (acc : List T) (hf : 0 < f) :
    parseVectorAux p sep opts copy f [] acc = .ok acc := by
  cases f with
  | zero => omega
  | succ a =>
    rw [parseVectorAux]
    simp

theorem parseVectorAux_congr {T : Type} (p : List Char → ConfigOptions → Except Status T)
    (sep : Char) (opts copy : ConfigOptions) :
    ∀ (f1 f2 : Nat) (rem : List Char) (acc : List T), rem.length < f1 →
      rem.length < f2 →
      parseVectorAux p sep opts copy f1 rem acc = parseVectorAux p sep opts copy f2 rem acc := by
  intro f1
  induction f1 with
  | zero => intro f2 rem acc h1 _; omega
  | succ a ih =>
    intro f2 rem acc h1 h2
    cases f2 with
    | zero => omega
    | succ b =>
      by_cases hrem : rem = []
      · subst hrem
        rw [parseVectorAux, parseVectorAux]
        simp
      · rw [parseVectorAux, parseVectorAux, if_neg hrem, if_neg hrem]
        have hlen : 0 < rem.length := List.length_pos.mpr hrem
        cases hnt : nextTokenCore rem sep with
        | error s => rfl
        | ok te =>
          obtain ⟨token, oe⟩ := te
          dsimp only
          cases hp : p token copy with
          | ok elem =>
            dsimp only
            cases oe with
            | none => rfl
            | some e =>
              dsimp only
              apply ih
              · have : (rem.drop (e + 1)).length < rem.length := by
                  rw [List.length_drop]; omega
                omega
              · have : (rem.drop (e + 1)).length < rem.length := by
                  rw [List.length_drop]; omega
                omega
          | error s =>
            dsimp only
            by_cases hig : opts.ignoreUnknownObjects = true ∧ s.isNotSupported = true
            · rw [if_pos hig, if_pos hig]
              cases oe with
              | none => rfl
              | some e =>
                dsimp only
                apply ih
                · have : (rem.drop (e + 1)).length < rem.length := by
                    rw [List.length_drop]; omega
                  omega
                · have : (rem.drop (e + 1)).length < rem.length := by
                    rw [List.length_drop]; omega
                  omega
            · rw [if_neg hig, if_neg hig]

/-- Appending one trailing separator to a nonempty value whose last character
    is not already the separator does not change the ParseVector loop: the
    loop stops when the scan position passes the end of the input, so no
    empty final token is produced. -/
theorem parseVectorAux_append_sep {T : Type} (p : List Char → ConfigOptions → Except Status T)
    (sep : Char) (opts copy : ConfigOptions)
    (hs1 : ¬(isSpaceC sep = true)) (hs2 : ¬(sep = '{')) (hs3 : ¬(sep = '}')) :
    ∀ (n : Nat) (rem : List Char) (acc : List T), rem.length ≤ n → rem ≠ [] →
      rem.getLast? ≠ some sep →
      parseVectorAux p sep opts copy (rem.length + 2) (rem ++ [sep]) acc =
        parseVectorAux p sep opts copy (rem.length + 1) rem acc := by
  intro n
  induction n with
  | zero =>
    intro rem acc hle hne _
    have := List.length_pos.mpr hne
    omega
  | succ m ih =>
    intro rem acc hle hne hlast
    have hlen : 0 < rem.length := List.length_pos.mpr hne
    have hextne : rem ++ [sep] ≠ [] := by simp
    rw [show rem.length + 2 = (rem.length + 1) + 1 from rfl]
    rw [parseVectorAux, if_neg hextne]
    conv_rhs => rw [parseVectorAux, if_neg hne]
    obtain ⟨hErr, hSome, hNone⟩ := nextTokenCore_append_sep rem sep hs1 hs2 hs3
    cases hnt : nextTokenCore rem sep with
    | error s =>
      rw [hErr s hnt]
    | ok te =>
      obtain ⟨token, oe⟩ := te
      cases oe with
      | none =>
        rw [hNone token hnt]
        dsimp only
        have hdrop : (rem ++ [sep]).drop (rem.length + 1) = [] := by
          apply List.drop_eq_nil_iff.mpr
          simp
        cases hp : p token copy with
        | ok elem =>
          dsimp only
          rw [hdrop]
          exact parseVectorAux_nil p sep opts copy _ _ (by omega)
        | error s =>
          dsimp only
          by_cases hig : opts.ignoreUnknownObjects = true ∧ s.isNotSupported = true
          · rw [if_pos hig, if_pos hig]
            rw [hdrop]
            exact parseVectorAux_nil p sep opts copy _ _ (by omega)
          · rw [if_neg hig, if_neg hig]
      | some e =>
        obtain ⟨hext, hele, hgd⟩ := hSome token e hnt
        rw [hext]
        dsimp only
        have hrec : ∀ acc2 : List T,
            parseVectorAux p sep opts copy (rem.length + 1) ((rem ++ [sep]).drop (e + 1)) acc2 =
              parseVectorAux p sep opts copy rem.length (rem.drop (e + 1)) acc2 := by
          intro acc2
          by_cases hee : e = rem.length
          · have hd1 : rem.drop (e + 1) = [] := by
              apply List.drop_eq_nil_iff.mpr
              omega
            have hd2 : (rem ++ [sep]).drop (e + 1) = [] := by
              apply List.drop_eq_nil_iff.mpr
              simp
              omega
            rw [hd1, hd2]
            rw [parseVectorAux_nil p sep opts copy _ _ (by omega),
              parseVectorAux_nil p sep opts copy _ _ (by omega)]
          · have helt : e < rem.length := by omega
            have hgde : rem.getD e ' ' = sep := hgd helt
            have hene : e + 1 < rem.length := by
              rcases Nat.lt_or_ge (e + 1) rem.length with h | h
              · exact h
              · have heq : e = rem.length - 1 := by omega
                have hcon : rem.getLast? = some sep := by
                  rw [getLast?_eq_getD hne ' ', ← heq, hgde]
                exact absurd hcon hlast
            have hd2 : (rem ++ [sep]).drop (e + 1) = rem.drop (e + 1) ++ [sep] :=
              drop_append_le (by omega) [sep]
            have hdne : rem.drop (e + 1) ≠ [] := by
              intro hcon
              have := List.drop_eq_nil_iff.mp hcon
              omega
            have hdlast : (rem.drop (e + 1)).getLast? ≠ some sep := by
              rw [getLast?_drop hdne]
              exact hlast
            have hlen3 : (rem.drop (e + 1)).length < rem.length := by
              rw [List.length_drop]; omega
            rw [hd2]
            calc parseVectorAux p sep opts copy (rem.length + 1)
                  (rem.drop (e + 1) ++ [sep]) acc2
                = parseVectorAux p sep opts copy ((rem.drop (e + 1)).length + 2)
                  (rem.drop (e + 1) ++ [sep]) acc2 := by
                  apply parseVectorAux_congr
                  · simp only [List.length_append, List.length_cons, List.length_nil]
                    omega
                  · simp only [List.length_append, List.length_cons, List.length_nil]
                    omega
              _ = parseVectorAux p sep opts copy ((rem.drop (e + 1)).length + 1)
                  (rem.drop (e + 1)) acc2 := ih (rem.drop (e + 1)) acc2 (by omega) hdne hdlast
              _ = parseVectorAux p sep opts copy rem.length (rem.drop (e + 1)) acc2 := by
                  apply parseVectorAux_congr
                  · omega
                  · omega
        cases hp : p token copy with
        | ok elem =>
          dsimp only
          exact hrec (acc ++ [elem])
        | error s =>
          dsimp only
          by_cases hig : opts.ignoreUnknownObjects = true ∧ s.isNotSupported = true
          · rw [if_pos hig, if_pos hig]
            exact hrec acc
          · rw [if_neg hig, if_neg hig]

/-- Claim C9 counterexample: with an integer element type (which rejects the
    empty token), the input "1:" that ends with the separator parses
    successfully to [1] — no empty final token is produced and parsing does
    not fail, contradicting the claim. -/
theorem c9_trailing_separator_counterexample :
    parseVector intElemParse ':' "1:".data {} = .ok [1] ∧
      parseVector intElemParse ':' "1".data {} = .ok [1] ∧
      intElemParse [] {} =
        .error (.invalidArgument ("Error parsing ".data ++ "v".data ++ [':'])) :=
  ⟨rfl, rfl, rfl⟩

/-- Claim C9 (amended): a trailing element separator is accepted and ignored —
    for every element parser, appending the separator to a nonempty value not
    already ending in it leaves the parse result unchanged, because the loop
    stops when the scan position passes the end of the input and no empty
    final token is produced (empty tokens arise only between two separators
    or before trailing whitespace). -/
theorem c9_trailing_separator_amended {T : Type}
    (p : List Char → ConfigOptions → Except Status T) (sep : Char)
    (v : List Char) (opts : ConfigOptions)
    (hs1 : ¬(isSpaceC sep = true)) (hs2 : ¬(sep = '{')) (hs3 : ¬(sep = '}'))
    (hne : v ≠ []) (hlast : v.getLast? ≠ some sep) :
    parseVector p sep (v ++ [sep]) opts = parseVector p sep v opts := by
  unfold parseVector
  have hl : (v ++ [sep]).length = v.length + 1 := by simp
  rw [hl]
  exact parseVectorAux_append_sep p sep opts { opts with ignoreUnknownObjects := false }
    hs1 hs2 hs3 v.length v [] le_rfl hne hlast

/-- Claim C9 (amended) witness: appending ':' to "1:2" gives the same parse. -/
theorem c9_trailing_separator_amended_witness :
    parseVector intElemParse ':' ("1:2".data ++ [':']) {} =
      parseVector intElemParse ':' "1:2".data {} :=
  c9_trailing_separator_amended intElemParse ':' "1:2".data {} (by decide) (by decide)
    (by decide) (by decide) (by decide)

theorem braceDelta_nil : braceDelta [] = 0 := rfl

theorem braceDelta_cons (c : Char) (l : List Char) :
    braceDelta (c :: l) = charDelta c + braceDelta l := by
  unfold braceDelta charDelta
  by_cases h1 : c = '{'
  · subst h1
    simp [List.count_cons]
    omega
  · by_cases h2 : c = '}'
    · subst h2
      simp [List.count_cons]
      omega
    · simp [List.count_cons, h1, h2]

theorem braceDelta_take_succ (c : Char) (l : List Char) (k : Nat) :
    braceDelta ((c :: l).take (k + 1)) = charDelta c + braceDelta (l.take k) := by
  rw [List.take_succ_cons, braceDelta_cons]

/-- One cons step of the brace-scan characterization, shared by the three
    recursive branches ('{', non-final '}' and plain characters). -/
theorem findClose_iff_succ {t : List Char} {cnt cnt' j' : Nat} (c : Char)
    (hcnt : 0 < cnt)
    (hcd : (cnt' : Int) = (cnt : Int) + charDelta c)
    (iht : findClose t cnt' = some j' ↔
      (t[j']? = some '}' ∧ (cnt' : Int) + braceDelta (t.take j') = 1 ∧
        ∀ k, k ≤ j' → 0 < (cnt' : Int) + braceDelta (t.take k))) :
    ((findClose t cnt').map (· + 1) = some (j' + 1) ↔
      ((c :: t)[j' + 1]? = some '}' ∧
        (cnt : Int) + braceDelta ((c :: t).take (j' + 1)) = 1 ∧
        ∀ k, k ≤ j' + 1 → 0 < (cnt : Int) + braceDelta ((c :: t).take k))) := by
  rw [List.getElem?_cons_succ]
  constructor
  · intro h
    have h2 : findClose t cnt' = some j' := by
      obtain ⟨a, ha, haeq⟩ := Option.map_eq_some'.mp h
      have haeq2 : a + 1 = j' + 1 := haeq
      have ha2 : a = j' := by omega
      subst ha2
      exact ha
    obtain ⟨g1, g2, g3⟩ := iht.mp h2
    refine ⟨g1, ?_, ?_⟩
    · rw [braceDelta_take_succ]
      omega
    · intro k hk
      cases k with
      | zero =>
        rw [List.take_zero, braceDelta_nil]
        omega
      | succ k2 =>
        rw [braceDelta_take_succ]
        have := g3 k2 (by omega)
        omega
  · intro hg
    obtain ⟨g1, g2, g3⟩ := hg
    have h2 : findClose t cnt' = some j' := by
      rw [iht]
      refine ⟨g1, ?_, ?_⟩
      · rw [braceDelta_take_succ] at g2
        omega
      · intro k hk
        have := g3 (k + 1) (by omega)
        rw [braceDelta_take_succ] at this
        omega
    rw [h2]
    rfl

/-- The brace scan finds exactly the declaratively matching close brace:
    starting from nesting depth `cnt`, it returns `j` iff position `j` holds
    '}' with the running depth positive throughout and equal to 1 just before
    consuming position `j`. -/
theorem findClose_iff : ∀ (l : List Char) (cnt j : Nat), 0 < cnt →
    (findClose l cnt = some j ↔
      (l[j]? = some '}' ∧ (cnt : Int) + braceDelta (l.take j) = 1 ∧
        ∀ k, k ≤ j → 0 < (cnt : Int) + braceDelta (l.take k))) := by
  intro l
  induction l with
  | nil =>
    intro cnt j hcnt
    constructor
    · intro h
      simp [findClose] at h
    · intro h
      simp at h
  | cons c t ih =>
    intro cnt j hcnt
    by_cases hc1 : c = '{'
    · subst hc1
      have hunf : findClose ('{' :: t) cnt = (findClose t (cnt + 1)).map (· + 1) := by
        rw [findClose]
        rw [if_pos rfl]
      rw [hunf]
      cases j with
      | zero =>
        constructor
        · intro h
          obtain ⟨a, _, haeq⟩ := Option.map_eq_some'.mp h
          have haeq2 : a + 1 = 0 := haeq
          omega
        · intro h
          have h1 := h.1
          rw [List.getElem?_cons_zero] at h1
          exact absurd h1 (by decide)
      | succ j2 =>
        exact findClose_iff_succ '{' hcnt (by
            have : charDelta '{' = 1 := rfl
            rw [this]
            push_cast
            ring) (ih (cnt + 1) j2 (by omega))
    · by_cases hc2 : c = '}'
      · subst hc2
        have hunf : findClose ('}' :: t) cnt =
            (if cnt = 1 then some 0 else (findClose t (cnt - 1)).map (· + 1)) := by
          rw [findClose]
          rw [if_neg (by decide), if_pos rfl]
        by_cases hcnt1 : cnt = 1
        · subst hcnt1
          rw [hunf, if_pos rfl]
          cases j with
          | zero =>
            constructor
            · intro _
              refine ⟨List.getElem?_cons_zero, ?_, ?_⟩
              · rw [List.take_zero, braceDelta_nil]
                omega
              · intro k hk
                have hk0 : k = 0 := by omega
                subst hk0
                rw [List.take_zero, braceDelta_nil]
                omega
            · intro _
              rfl
          | succ j2 =>
            constructor
            · intro h
              simp at h
            · intro hg
              have := hg.2.2 1 (by omega)
              rw [braceDelta_take_succ] at this
              have hcd : charDelta '}' = -1 := rfl
              rw [hcd, List.take_zero, braceDelta_nil] at this
              omega
        · rw [hunf, if_neg hcnt1]
          have hcnt2 : 2 ≤ cnt := by omega
          have hcast : ((cnt - 1 : Nat) : Int) = (cnt : Int) + charDelta '}' := by
            have hcd : charDelta '}' = -1 := rfl
            rw [hcd]
            omega
          cases j with
          | zero =>
            constructor
            · intro h
              obtain ⟨a, _, haeq⟩ := Option.map_eq_some'.mp h
              have haeq2 : a + 1 = 0 := haeq
              omega
            · intro hg
              have g2 := hg.2.1
              rw [List.take_zero, braceDelta_nil] at g2
              omega
          | succ j2 =>
            exact findClose_iff_succ '}' hcnt hcast (ih (cnt - 1) j2 (by omega))
      · have hunf : findClose (c :: t) cnt = (findClose t cnt).map (· + 1) := by
          rw [findClose]
          rw [if_neg hc1, if_neg hc2]
        rw [hunf]
        have hcd : charDelta c = 0 := by
          unfold charDelta
          rw [if_neg hc1, if_neg hc2]
        cases j with
        | zero =>
          constructor
          · intro h
            obtain ⟨a, _, haeq⟩ := Option.map_eq_some'.mp h
            have haeq2 : a + 1 = 0 := haeq
            omega
          · intro hg
            have h1 := hg.1
            rw [List.getElem?_cons_zero] at h1
            have : c = '}' := by injection h1
            exact absurd this hc2
        | succ j2 =>
          exact findClose_iff_succ c hcnt (by rw [hcd]; ring) (ih cnt j2 hcnt)

theorem matchCloseP_iff_findClose (l : List Char) (j : Nat) :
    findClose l 1 = some j ↔ matchCloseP l j := by
  rw [findClose_iff l 1 j (by omega)]
  unfold matchCloseP
  constructor
  · intro hg
    obtain ⟨g1, g2, g3⟩ := hg
    refine ⟨g1, by push_cast at g2; omega, ?_⟩
    intro k hk
    have := g3 k hk
    push_cast at this
    omega
  · intro hg
    obtain ⟨g1, g2, g3⟩ := hg
    refine ⟨g1, by push_cast; omega, ?_⟩
    intro k hk
    have := g3 k hk
    push_cast
    omega

/-- Claim C3: NextToken when the first non-space character at or after `pos`
    is an opening brace.  If a matching close brace exists at offset `j` in
    the characters after the brace (nesting tracked by matchCloseP), the
    token is the trimmed interior; if the next non-space character after the
    matching brace is neither end-of-input nor the delimiter, the result is
    InvalidArgument "Unexpected chars after nested options"; if the braces
    are unbalanced (no matching close), the result is InvalidArgument
    "Mismatched curly braces for nested options" (of which the spec quotes
    the prefix "Mismatched curly braces"). -/
theorem c3_next_token_spec (opts : List Char) (delim : Char) (pos i : Nat)
    (hi : i = pos + ((opts.drop pos).takeWhile isSpaceC).length)
    (hlen : i < opts.length) (hbrace : opts[i]? = some '{') :
    (∀ j, matchCloseP (opts.drop (i + 1)) j →
      ((i + 1 + (j + 1) +
            (((opts.drop (i + 1)).drop (j + 1)).takeWhile isSpaceC).length < opts.length ∧
          opts.getD (i + 1 + (j + 1) +
            (((opts.drop (i + 1)).drop (j + 1)).takeWhile isSpaceC).length) ' ' ≠ delim →
          nextToken opts delim pos =
            .error (.invalidArgument "Unexpected chars after nested options".data)) ∧
        (¬(i + 1 + (j + 1) +
              (((opts.drop (i + 1)).drop (j + 1)).takeWhile isSpaceC).length < opts.length ∧
            opts.getD (i + 1 + (j + 1) +
              (((opts.drop (i + 1)).drop (j + 1)).takeWhile isSpaceC).length) ' ' ≠ delim) →
          nextToken opts delim pos =
            .ok (trimL ((opts.drop (i + 1)).take j),
              some (i + 1 + (j + 1) +
                (((opts.drop (i + 1)).drop (j + 1)).takeWhile isSpaceC).length))))) ∧
      ((∀ j, ¬matchCloseP (opts.drop (i + 1)) j) →
        nextToken opts delim pos =
          .error (.invalidArgument "Mismatched curly braces for nested options".data)) := by
  have hjsp : (opts.drop pos).drop ((opts.drop pos).takeWhile isSpaceC).length =
      opts.drop i := by
    rw [List.drop_drop, ← hi]
  have hb2 : opts[i] = '{' := by
    have hb := hbrace
    rw [List.getElem?_eq_getElem hlen] at hb
    exact Option.some.inj hb
  have hcons : opts.drop i = '{' :: opts.drop (i + 1) := by
    rw [List.drop_eq_getElem_cons hlen, hb2]
  have hcore : nextTokenCore (opts.drop pos) delim =
      nextTokenBrace ((opts.drop pos).takeWhile isSpaceC).length (opts.drop (i + 1)) delim := by
    rw [nextTokenCore_of_drop_cons delim (hjsp.trans hcons), if_pos rfl]
  have hlen_eq : opts.length = i + 1 + (opts.drop (i + 1)).length := by
    rw [List.length_drop]
    omega
  have hnt : nextToken opts delim pos =
      (nextTokenBrace ((opts.drop pos).takeWhile isSpaceC).length
        (opts.drop (i + 1)) delim).map (fun te => (te.1, te.2.map (pos + ·))) := by
    unfold nextToken
    rw [hcore]
  constructor
  · intro j hm
    have hfc : findClose (opts.drop (i + 1)) 1 = some j :=
      (matchCloseP_iff_findClose _ j).mpr hm
    have hdl : ((opts.drop (i + 1)).drop (j + 1)).length =
        (opts.drop (i + 1)).length - (j + 1) := List.length_drop _ _
    have hgd : ((opts.drop (i + 1)).drop (j + 1)).getD
        (((opts.drop (i + 1)).drop (j + 1)).takeWhile isSpaceC).length ' ' =
        opts.getD (i + 1 + (j + 1) +
          (((opts.drop (i + 1)).drop (j + 1)).takeWhile isSpaceC).length) ' ' := by
      rw [getD_drop (opts.drop (i + 1)), getD_drop opts]
      congr 1
      omega
    have hbrace_eq : nextTokenBrace ((opts.drop pos).takeWhile isSpaceC).length
        (opts.drop (i + 1)) delim =
        (if (((opts.drop (i + 1)).drop (j + 1)).takeWhile isSpaceC).length <
              ((opts.drop (i + 1)).drop (j + 1)).length ∧
            ((opts.drop (i + 1)).drop (j + 1)).getD
              (((opts.drop (i + 1)).drop (j + 1)).takeWhile isSpaceC).length ' ' ≠ delim then
          .error (.invalidArgument "Unexpected chars after nested options".data)
        else
          .ok (trimL ((opts.drop (i + 1)).take j),
            some (((opts.drop pos).takeWhile isSpaceC).length + 1 + (j + 1) +
              (((opts.drop (i + 1)).drop (j + 1)).takeWhile isSpaceC).length))) := by
      unfold nextTokenBrace
      rw [hfc]
    have hcondiff : ((((opts.drop (i + 1)).drop (j + 1)).takeWhile isSpaceC).length <
          ((opts.drop (i + 1)).drop (j + 1)).length ∧
        ((opts.drop (i + 1)).drop (j + 1)).getD
          (((opts.drop (i + 1)).drop (j + 1)).takeWhile isSpaceC).length ' ' ≠ delim) ↔
        (i + 1 + (j + 1) +
            (((opts.drop (i + 1)).drop (j + 1)).takeWhile isSpaceC).length < opts.length ∧
          opts.getD (i + 1 + (j + 1) +
            (((opts.drop (i + 1)).drop (j + 1)).takeWhile isSpaceC).length) ' ' ≠ delim) := by
      rw [← hgd]
      constructor
      · intro hc
        exact ⟨by omega, hc.2⟩
      · intro hc
        exact ⟨by omega, hc.2⟩
    constructor
    · intro habs
      rw [hnt, hbrace_eq, if_pos (hcondiff.mpr habs)]
      rfl
    · intro habs
      rw [hnt, hbrace_eq, if_neg (fun hc => habs (hcondiff.mp hc))]
      have harith : pos + (((opts.drop pos).takeWhile isSpaceC).length + 1 + (j + 1) +
          (((opts.drop (i + 1)).drop (j + 1)).takeWhile isSpaceC).length) =
          i + 1 + (j + 1) +
            (((opts.drop (i + 1)).drop (j + 1)).takeWhile isSpaceC).length := by
        omega
      simp only [Except.map, Option.map]
      rw [harith]
  · intro hnm
    have hfc : findClose (opts.drop (i + 1)) 1 = Option.none := by
      cases hfc2 : findClose (opts.drop (i + 1)) 1 with
      | none => rfl
      | some j =>
        exact absurd ((matchCloseP_iff_findClose _ j).mp hfc2) (hnm j)
    rw [hnt]
    unfold nextTokenBrace
    rw [hfc]
    rfl

/-- Claim C3 witness: scanning "{ab};x" from position 0 finds the matching
    brace at interior offset 2 and returns the trimmed interior with the scan
    stopped on the delimiter. -/
theorem c3_next_token_spec_witness :
    nextToken "{ab};x".data ';' 0 = .ok ("ab".data, some 4) := by
  have h := (c3_next_token_spec "{ab};x".data ';' 0 0 (by decide) (by decide)
      (by decide)).1 2 (by decide)
  have h2 := h.2 (by decide)
  exact h2

theorem takeWhile_of_all {p : Char → Bool} : ∀ {l : List Char},
    (∀ c ∈ l, p c = true) → l.takeWhile p = l := by
  intro l
  induction l with
  | nil => intro _; rfl
  | cons c t ih =>
    intro h
    rw [List.takeWhile_cons, if_pos (h c (by simp))]
    rw [ih (fun x hx => h x (by simp [hx]))]

theorem dropWhile_of_all_neg {p : Char → Bool} {l : List Char}
    (h : ∀ c ∈ l, p c = false) : l.dropWhile p = l := by
  cases l with
  | nil => rfl
  | cons c t =>
    rw [List.dropWhile_cons, if_neg (by rw [h c (by simp)]; simp)]

theorem trimL_of_all {s : List Char} (h : ∀ c ∈ s, isSpaceC c = false) :
    trimL s = s := by
  unfold trimL
  rw [dropWhile_of_all_neg h]
  rw [dropWhile_of_all_neg (fun c hc => h c (List.mem_reverse.mp hc))]
  exact List.reverse_reverse s

theorem digitChar_props {d : Nat} (h : d < 10) :
    (digitChar d).isDigit = true ∧ digitVal? (digitChar d) = some d ∧
      isSpaceC (digitChar d) = false ∧ ¬(digitChar d = ';') ∧
      ¬(digitChar d = '{') ∧ ¬(digitChar d = '\\') ∧ ¬(digitChar d = '-') ∧
      ¬(digitChar d = '.') ∧ ¬(digitChar d = '=') ∧ ¬(digitChar d = '}') := by
  interval_cases d <;> exact ⟨rfl, rfl, rfl, by decide, by decide, by decide,
    by decide, by decide, by decide, by decide⟩

theorem natDigitsAux_chars : ∀ (fuel n : Nat) (c : Char),
    c ∈ natDigitsAux fuel n → ∃ d, d < 10 ∧ c = digitChar d := by
  intro fuel
  induction fuel with
  | zero => intro n c hc; simp [natDigitsAux] at hc
  | succ f ih =>
    intro n c hc
    rw [natDigitsAux] at hc
    by_cases h10 : n < 10
    · rw [if_pos h10] at hc
      simp at hc
      exact ⟨n, h10, hc⟩
    · rw [if_neg h10] at hc
      rw [List.mem_append] at hc
      cases hc with
      | inl hl => exact ih _ c hl
      | inr hr =>
        simp at hr
        exact ⟨n % 10, by omega, hr⟩

theorem natDigitsAux_ne_nil (fuel n : Nat) : natDigitsAux (fuel + 1) n ≠ [] := by
  rw [natDigitsAux]
  by_cases h10 : n < 10
  · rw [if_pos h10]; simp
  · rw [if_neg h10]; simp

theorem natToDec_ne_nil (n : Nat) : natToDec n ≠ [] := natDigitsAux_ne_nil n n

theorem natToDec_chars {n : Nat} {c : Char} (hc : c ∈ natToDec n) :
    ∃ d, d < 10 ∧ c = digitChar d := natDigitsAux_chars (n + 1) n c hc

theorem natToDec_all_digits {n : Nat} : ∀ c ∈ natToDec n, c.isDigit = true := by
  intro c hc
  obtain ⟨d, hd, rfl⟩ := natToDec_chars hc
  exact (digitChar_props hd).1

theorem natDigitsAux_eval : ∀ (fuel n a : Nat), n < fuel →
    (natDigitsAux fuel n).foldl digitStep (some a) =
      some (a * 10 ^ (natDigitsAux fuel n).length + n) := by
  intro fuel
  induction fuel with
  | zero => intro n a h; omega
  | succ f ih =>
    intro n a h
    rw [natDigitsAux]
    by_cases h10 : n < 10
    · rw [if_pos h10]
      have hd := (digitChar_props h10).2.1
      simp only [List.foldl_cons, List.foldl_nil, digitStep, hd, List.length_cons,
        List.length_nil, pow_one]
      rw [pow_one]
    · rw [if_neg h10]
      have hrec : n / 10 < f := by omega
      rw [List.foldl_append]
      rw [ih (n / 10) a hrec]
      have hd := (digitChar_props (show n % 10 < 10 by omega)).2.1
      simp only [List.foldl_cons, List.foldl_nil, digitStep, hd]
      congr 1
      have hlen : (natDigitsAux f (n / 10) ++ [digitChar (n % 10)]).length =
          (natDigitsAux f (n / 10)).length + 1 := by simp
      rw [hlen, pow_succ]
      have hmod : n / 10 * 10 + n % 10 = n := by omega
      have : (a * 10 ^ (natDigitsAux f (n / 10)).length + n / 10) * 10 + n % 10 =
          a * (10 ^ (natDigitsAux f (n / 10)).length * 10) + (n / 10 * 10 + n % 10) := by
        ring
      rw [this, hmod]

theorem natToDec_parse (n : Nat) : digitsToNat? (natToDec n) = some n := by
  unfold digitsToNat? natToDec
  rw [natDigitsAux_eval (n + 1) n 0 (by omega)]
  simp

theorem natDigitsAux_length_le : ∀ (fuel n k : Nat), n < fuel → n < 10 ^ k →
    1 ≤ k → (natDigitsAux fuel n).length ≤ k := by
  intro fuel
  induction fuel with
  | zero => intro n k h; omega
  | succ f ih =>
    intro n k h hk h1
    rw [natDigitsAux]
    by_cases h10 : n < 10
    · rw [if_pos h10]; simpa using h1
    · rw [if_neg h10]
      cases k with
      | zero => omega
      | succ k2 =>
        cases k2 with
        | zero =>
          rw [pow_one] at hk
          omega
        | succ k3 =>
          have hdiv : n / 10 < 10 ^ (k3 + 1) := by
            rw [Nat.div_lt_iff_lt_mul (by omega : 0 < 10)]
            rw [← pow_succ]
            exact hk
          have := ih (n / 10) (k3 + 1) (by omega) hdiv (by omega)
          simp only [List.length_append, List.length_cons, List.length_nil]
          omega

theorem foldl_digitStep_replicate_zero : ∀ k : Nat,
    (List.replicate k '0').foldl digitStep (some 0) = some 0 := by
  intro k
  induction k with
  | zero => rfl
  | succ k2 ih =>
    rw [List.replicate_succ, List.foldl_cons]
    exact ih

theorem digitsToNat?_pad (k : Nat) (l : List Char) :
    digitsToNat? (List.replicate k '0' ++ l) = digitsToNat? l := by
  unfold digitsToNat?
  rw [List.foldl_append, foldl_digitStep_replicate_zero]

theorem parseNatM_natToDec (n : Nat) : parseNatM (natToDec n) = some n := by
  unfold parseNatM
  rw [takeWhile_of_all natToDec_all_digits]
  rw [if_neg (natToDec_ne_nil n), natToDec_parse n, List.drop_length]

theorem parseIntM_cons {c : Char} (t : List Char) (h : ¬(c = '-')) :
    parseIntM (c :: t) = (parseNatM (c :: t)).map (fun n => (n : Int)) := by
  unfold parseIntM
  split
  · next rest heq =>
    rw [List.cons.injEq] at heq
    exact absurd heq.1 h
  · rfl

theorem parseIntM_intToDec (i : Int) : parseIntM (intToDec i) = some i := by
  unfold intToDec
  by_cases hi : i < 0
  · rw [if_pos hi]
    show (parseNatM (natToDec i.natAbs)).map (fun n => -(n : Int)) = some i
    rw [parseNatM_natToDec]
    show some (-(i.natAbs : Int)) = some i
    congr 1
    omega
  · rw [if_neg hi]
    cases hnd : natToDec i.natAbs with
    | nil => exact absurd hnd (natToDec_ne_nil _)
    | cons c t =>
      have hcd : ∃ d, d < 10 ∧ c = digitChar d :=
        natToDec_chars (hnd ▸ (by simp : c ∈ c :: t))
      obtain ⟨d, hd, rfl⟩ := hcd
      rw [parseIntM_cons t (digitChar_props hd).2.2.2.2.2.2.1]
      rw [← hnd, parseNatM_natToDec]
      show some ((i.natAbs : Int)) = some i
      congr 1
      omega

theorem unescCode_escCode {c : Char} (h : isSpecialOpt c = true) :
    unescCode (escCode c) = c := by
  have hcases : c = ';' ∨ c = '=' ∨ c = '{' ∨ c = '}' ∨ c = '#' ∨ c = '\\' ∨
      c = ' ' ∨ c = '\t' ∨ c = '\n' ∨ c = '\x0b' ∨ c = '\x0c' ∨ c = '\r' := by
    simp only [isSpecialOpt, isSpaceC, Bool.or_eq_true, decide_eq_true_eq] at h
    tauto
  rcases hcases with rfl | rfl | rfl | rfl | rfl | rfl | rfl | rfl | rfl | rfl |
    rfl | rfl <;> decide

theorem escape_ne_bs {c : Char} (h : ¬(isSpecialOpt c = true)) : ¬(c = '\\') := by
  intro hc
  subst hc
  exact h (by decide)

theorem unescape_cons_ne {c : Char} (t : List Char) (h : ¬(c = '\\')) :
    unescapeOptionString (c :: t) = c :: unescapeOptionString t := by
  rw [unescapeOptionString.eq_def]
  dsimp only
  rw [if_neg h]

theorem unescape_cons_bs (x : Char) (y : List Char) :
    unescapeOptionString ('\\' :: x :: y) = unescCode x :: unescapeOptionString y := rfl

theorem unescape_escape : ∀ s : List Char,
    unescapeOptionString (escapeOptionString s) = s := by
  intro s
  induction s with
  | nil => rfl
  | cons c t ih =>
    rw [escapeOptionString]
    by_cases hc : isSpecialOpt c = true
    · rw [if_pos hc]
      rw [unescape_cons_bs]
      rw [unescCode_escCode hc, ih]
    · rw [if_neg hc]
      rw [unescape_cons_ne _ (escape_ne_bs hc), ih]

theorem unescape_of_no_bs : ∀ {s : List Char},
    (∀ c ∈ s, ¬(c = '\\')) → unescapeOptionString s = s := by
  intro s
  induction s with
  | nil => intro _; rfl
  | cons c t ih =>
    intro h
    rw [unescape_cons_ne _ (h c (by simp))]
    rw [ih (fun x hx => h x (by simp [hx]))]

theorem escCode_safe (c : Char) : isSpaceC (escCode c) = false ∧
    ¬(escCode c = ';') ∧ ¬(escCode c = '{') := by
  unfold escCode
  repeat' split
  all_goals decide

theorem escape_safe : ∀ (s : List Char), ∀ c ∈ escapeOptionString s,
    isSpaceC c = false ∧ ¬(c = ';') ∧ ¬(c = '{') := by
  intro s
  induction s with
  | nil => intro c hc; simp [escapeOptionString] at hc
  | cons a t ih =>
    intro c hc
    rw [escapeOptionString] at hc
    by_cases ha : isSpecialOpt a = true
    · rw [if_pos ha] at hc
      rw [List.mem_cons] at hc
      rcases hc with hc | hc
      · subst hc; exact ⟨rfl, by decide, by decide⟩
      · rw [List.mem_cons] at hc
        rcases hc with hc | hc
        · subst hc; exact escCode_safe a
        · exact ih c hc
    · rw [if_neg ha] at hc
      rw [List.mem_cons] at hc
      rcases hc with hc | hc
      · subst hc
        refine ⟨?_, ?_, ?_⟩
        · by_contra hsp
          rw [Bool.not_eq_false] at hsp
          exact ha (by simp [isSpecialOpt, hsp])
        · intro hcc
          exact ha (by rw [hcc]; decide)
        · intro hcc
          exact ha (by rw [hcc]; decide)
      · exact ih c hc

theorem takeWhile_append_cons_neg {p : Char → Bool} {c : Char}
    (hc : ¬(p c = true)) : ∀ (l r : List Char), (∀ x ∈ l, p x = true) →
    ((l ++ c :: r).takeWhile p) = l := by
  intro l
  induction l with
  | nil =>
    intro r _
    rw [List.nil_append, List.takeWhile_cons, if_neg hc]
  | cons a t ih =>
    intro r h
    rw [List.cons_append, List.takeWhile_cons, if_pos (h a (by simp))]
    rw [ih r (fun x hx => h x (by simp [hx]))]

theorem padLeftZeros_length {k : Nat} {l : List Char} (h : l.length ≤ k) :
    (padLeftZeros k l).length = k := by
  unfold padLeftZeros
  simp
  omega

theorem parseUDoubleM_frac (q rmod : Nat) (hr : rmod < 1000000) :
    parseUDoubleM (natToDec q ++ '.' :: padLeftZeros 6 (natToDec rmod)) =
      some (q * 1000000 + rmod) := by
  have htw : ((natToDec q ++ '.' :: padLeftZeros 6 (natToDec rmod)).takeWhile
      Char.isDigit) = natToDec q :=
    takeWhile_append_cons_neg (by decide) _ _ natToDec_all_digits
  have hlen6 : (natToDec rmod).length ≤ 6 := by
    refine natDigitsAux_length_le (rmod + 1) rmod 6 (by omega) ?_ (by omega)
    show rmod < 10 ^ 6
    norm_num
    omega
  have hplen : (padLeftZeros 6 (natToDec rmod)).length = 6 := padLeftZeros_length hlen6
  unfold parseUDoubleM
  rw [htw]
  rw [if_neg (natToDec_ne_nil q), natToDec_parse q]
  rw [drop_append_le (Nat.le_refl _) _, List.drop_length, List.nil_append]
  dsimp only
  have hfne : padLeftZeros 6 (natToDec rmod) ≠ [] := by
    intro h
    rw [h] at hplen
    simp at hplen
  have hfall : (padLeftZeros 6 (natToDec rmod)).all Char.isDigit = true := by
    rw [List.all_eq_true]
    intro c hc
    unfold padLeftZeros at hc
    rw [List.mem_append] at hc
    cases hc with
    | inl hl =>
      rw [List.eq_of_mem_replicate hl]
      decide
    | inr hrr => exact natToDec_all_digits c hrr
  show (if padLeftZeros 6 (natToDec rmod) ≠ [] ∧
      (padLeftZeros 6 (natToDec rmod)).all Char.isDigit = true then
      Option.map (fun f => q * 1000000 + f)
        (digitsToNat? (List.take 6 (padLeftZeros 6 (natToDec rmod) ++
          List.replicate 6 '0')))
    else Option.none) = some (q * 1000000 + rmod)
  rw [if_pos ⟨hfne, hfall⟩]
  have htake : ((padLeftZeros 6 (natToDec rmod) ++ List.replicate 6 '0').take 6) =
      padLeftZeros 6 (natToDec rmod) := by
    rw [take_append_le (by omega) _]
    exact List.take_of_length_le (by omega)
  rw [htake]
  show (digitsToNat? (List.replicate (6 - (natToDec rmod).length) '0' ++
    natToDec rmod)).map (fun f => q * 1000000 + f) = _
  rw [digitsToNat?_pad, natToDec_parse]
  rfl

theorem parseDoubleM_cons {c : Char} (t : List Char) (h : ¬(c = '-')) :
    parseDoubleM (c :: t) = (parseUDoubleM (c :: t)).map (fun n => (n : Int)) := by
  unfold parseDoubleM
  split
  · next rest heq =>
    rw [List.cons.injEq] at heq
    exact absurd heq.1 h
  · rfl

theorem parseDoubleM_doubleToDec (m : Int) : parseDoubleM (doubleToDec m) = some m := by
  have hmod : m.natAbs % 1000000 < 1000000 := by omega
  have hdm : m.natAbs / 1000000 * 1000000 + m.natAbs % 1000000 = m.natAbs := by omega
  unfold doubleToDec
  by_cases hm : m < 0
  · rw [if_pos hm]
    rw [List.singleton_append]
    show (parseUDoubleM (natToDec (m.natAbs / 1000000) ++ '.' ::
      padLeftZeros 6 (natToDec (m.natAbs % 1000000)))).map (fun n => -(n : Int)) = some m
    rw [parseUDoubleM_frac _ _ hmod]
    show some (-((m.natAbs / 1000000 * 1000000 + m.natAbs % 1000000 : Nat) : Int)) = some m
    rw [hdm]
    congr 1
    omega
  · rw [if_neg hm, List.nil_append]
    cases hnd : natToDec (m.natAbs / 1000000) with
    | nil => exact absurd hnd (natToDec_ne_nil _)
    | cons c t =>
      have hcd : ∃ d, d < 10 ∧ c = digitChar d :=
        natToDec_chars (hnd ▸ (by simp : c ∈ c :: t))
      obtain ⟨d, hd, rfl⟩ := hcd
      rw [List.cons_append]
      rw [parseDoubleM_cons _ (digitChar_props hd).2.2.2.2.2.2.1]
      rw [← List.cons_append, ← hnd, parseUDoubleM_frac _ _ hmod]
      show some (((m.natAbs / 1000000 * 1000000 + m.natAbs % 1000000 : Nat) : Int)) = some m
      rw [hdm]
      congr 1
      omega

theorem intToDec_chars {i : Int} {c : Char} (hc : c ∈ intToDec i) :
    c = '-' ∨ ∃ d, d < 10 ∧ c = digitChar d := by
  unfold intToDec at hc
  by_cases hi : i < 0
  · rw [if_pos hi] at hc
    rw [List.mem_cons] at hc
    cases hc with
    | inl h => exact Or.inl h
    | inr h => exact Or.inr (natToDec_chars h)
  · rw [if_neg hi] at hc
    exact Or.inr (natToDec_chars hc)

theorem intToDec_ne_nil (i : Int) : intToDec i ≠ [] := by
  unfold intToDec
  by_cases hi : i < 0
  · rw [if_pos hi]; simp
  · rw [if_neg hi]; exact natToDec_ne_nil _

theorem intToDec_no_space {i : Int} : ∀ c ∈ intToDec i, isSpaceC c = false := by
  intro c hc
  rcases intToDec_chars hc with rfl | ⟨d, hd, rfl⟩
  · rfl
  · exact (digitChar_props hd).2.2.1

theorem trimL_intToDec (i : Int) : trimL (intToDec i) = intToDec i :=
  trimL_of_all intToDec_no_space

theorem parseSliceHelper_short_none (n : Int) (P : List Char)
    (hlt6 : "fixed:".data.length ≤ P.length)
    (hlt7 : "capped:".data.length ≤ P.length)
    (ht6 : ¬(P.take "fixed:".data.length = "fixed:".data))
    (ht7 : ¬(P.take "capped:".data.length = "capped:".data))
    (hlen12 : ¬(P.length + (intToDec n).length = ("rocksdb.Noop".data).length))
    (hlen7 : ¬(P.length + (intToDec n).length = nullptrString.length)) :
    parseSliceHelper "fixed:".data "capped:".data (P ++ intToDec n) =
      Option.none := by
  unfold parseSliceHelper
  rw [if_neg, if_neg, if_neg, if_neg]
  · intro h
    have := congrArg List.length h
    rw [List.length_append] at this
    exact hlen7 this
  · intro h
    have := congrArg List.length h
    rw [List.length_append] at this
    exact hlen12 this
  · intro h
    rw [take_append_le hlt7 _] at h
    exact ht7 h.2
  · intro h
    rw [take_append_le hlt6 _] at h
    exact ht6 h.2

theorem parseSliceHelper_long_fixed (n : Int) :
    parseSliceHelper "rocksdb.FixedPrefix.".data "rocksdb.CappedPrefix.".data
        ("rocksdb.FixedPrefix.".data ++ intToDec n) =
      some (.okVal (.sliceTransformV (some (.fixedPrefixT n)))) := by
  have hne : 1 ≤ (intToDec n).length :=
    List.length_pos.mpr (intToDec_ne_nil n)
  unfold parseSliceHelper
  rw [if_pos]
  · rw [drop_append_le (Nat.le_refl _) _, List.drop_length, List.nil_append]
    rw [trimL_intToDec, parseIntM_intToDec]
  · constructor
    · rw [List.length_append]; omega
    · rw [take_append_le (Nat.le_refl _) _]
      exact List.take_length _

theorem parseSliceHelper_long_capped (n : Int) :
    parseSliceHelper "rocksdb.FixedPrefix.".data "rocksdb.CappedPrefix.".data
        ("rocksdb.CappedPrefix.".data ++ intToDec n) =
      some (.okVal (.sliceTransformV (some (.cappedPrefixT n)))) := by
  have hne : 1 ≤ (intToDec n).length :=
    List.length_pos.mpr (intToDec_ne_nil n)
  unfold parseSliceHelper
  rw [if_neg, if_pos]
  · rw [drop_append_le (Nat.le_refl _) _, List.drop_length, List.nil_append]
    rw [trimL_intToDec, parseIntM_intToDec]
  · constructor
    · rw [List.length_append]; omega
    · rw [take_append_le (Nat.le_refl _) _]
      exact List.take_length _
  · intro h
    rw [take_append_le (by decide) _] at h
    exact absurd h.2 (by decide)

theorem parseSlice_fixed (n : Int) :
    parseSliceTransform ("rocksdb.FixedPrefix.".data ++ intToDec n) =
      .okVal (.sliceTransformV (some (.fixedPrefixT n))) := by
  have hne : 1 ≤ (intToDec n).length :=
    List.length_pos.mpr (intToDec_ne_nil n)
  unfold parseSliceTransform
  rw [parseSliceHelper_short_none n _ (by decide) (by decide)
    (by rw [show ("rocksdb.FixedPrefix.".data.take "fixed:".data.length) =
        "rocksd".data from rfl]; decide)
    (by rw [show ("rocksdb.FixedPrefix.".data.take "capped:".data.length) =
        "rocksdb".data from rfl]; decide)
    (by intro h; rw [show ("rocksdb.FixedPrefix.".data).length = 20 from rfl] at h
        rw [show ("rocksdb.Noop".data).length = 12 from rfl] at h; omega)
    (by intro h; rw [show ("rocksdb.FixedPrefix.".data).length = 20 from rfl] at h
        rw [show nullptrString.length = 7 from rfl] at h; omega)]
  rw [parseSliceHelper_long_fixed n]

theorem parseSlice_capped (n : Int) :
    parseSliceTransform ("rocksdb.CappedPrefix.".data ++ intToDec n) =
      .okVal (.sliceTransformV (some (.cappedPrefixT n))) := by
  have hne : 1 ≤ (intToDec n).length :=
    List.length_pos.mpr (intToDec_ne_nil n)
  unfold parseSliceTransform
  rw [parseSliceHelper_short_none n _ (by decide) (by decide)
    (by rw [show ("rocksdb.CappedPrefix.".data.take "fixed:".data.length) =
        "rocksd".data from rfl]; decide)
    (by rw [show ("rocksdb.CappedPrefix.".data.take "capped:".data.length) =
        "rocksdb".data from rfl]; decide)
    (by intro h; rw [show ("rocksdb.CappedPrefix.".data).length = 21 from rfl] at h
        rw [show ("rocksdb.Noop".data).length = 12 from rfl] at h; omega)
    (by intro h; rw [show ("rocksdb.CappedPrefix.".data).length = 21 from rfl] at h
        rw [show nullptrString.length = 7 from rfl] at h; omega)]
  rw [parseSliceHelper_long_capped n]

theorem serializeEnum_mem {E : Type} [DecidableEq E] {map : List (List Char × E)}
    {e : E} {s : List Char} (h : serializeEnum map e = some s) :
    ∃ p ∈ map, p.1 = s := by
  unfold serializeEnum at h
  rw [Option.map_eq_some'] at h
  obtain ⟨p, hf, hp⟩ := h
  exact ⟨p, List.mem_of_find?_eq_some hf, hp⟩

theorem enumRound_compactionStyle (e : CompactionStyle) :
    ∀ s, serializeEnum compactionStyleStringMap e = some s →
      parseEnum compactionStyleStringMap s = some e := by
  cases e <;> (intro s h; injection h with h2; subst h2; decide)

theorem enumRound_compactionPri (e : CompactionPri) :
    ∀ s, serializeEnum compactionPriStringMap e = some s →
      parseEnum compactionPriStringMap s = some e := by
  cases e <;> (intro s h; injection h with h2; subst h2; decide)

theorem enumRound_compressionType (e : CompressionType) :
    ∀ s, serializeEnum compressionTypeStringMap e = some s →
      parseEnum compressionTypeStringMap s = some e := by
  cases e <;> (intro s h; injection h with h2; subst h2; decide)

theorem enumRound_checksumType (e : ChecksumType) :
    ∀ s, serializeEnum checksumTypeStringMap e = some s →
      parseEnum checksumTypeStringMap s = some e := by
  cases e <;> (intro s h; injection h with h2; subst h2; decide)

theorem enumRound_encodingType (e : EncodingType) :
    ∀ s, serializeEnum encodingTypeStringMap e = some s →
      parseEnum encodingTypeStringMap s = some e := by
  cases e <;> (intro s h; injection h with h2; subst h2; decide)

theorem enumRound_compactionStopStyle (e : CompactionStopStyle) :
    ∀ s, serializeEnum compactionStopStyleStringMap e = some s →
      parseEnum compactionStopStyleStringMap s = some e := by
  cases e <;> (intro s h; injection h with h2; subst h2; decide)

theorem doubleToDec_chars {m : Int} {c : Char} (hc : c ∈ doubleToDec m) :
    c = '-' ∨ c = '.' ∨ c = '0' ∨ ∃ d, d < 10 ∧ c = digitChar d := by
  unfold doubleToDec at hc
  rw [List.mem_append, List.mem_append] at hc
  rcases hc with (hc | hc) | hc
  · by_cases hm : m < 0
    · rw [if_pos hm] at hc
      simp at hc
      exact Or.inl hc
    · rw [if_neg hm] at hc
      simp at hc
  · exact Or.inr (Or.inr (Or.inr (natToDec_chars hc)))
  · rw [List.mem_cons] at hc
    rcases hc with hc | hc
    · exact Or.inr (Or.inl hc)
    · unfold padLeftZeros at hc
      rw [List.mem_append] at hc
      rcases hc with hc | hc
      · exact Or.inr (Or.inr (Or.inl (List.eq_of_mem_replicate hc)))
      · exact Or.inr (Or.inr (Or.inr (natToDec_chars hc)))

/-- The serialized form of a primitive value survives the StringToMap
    tokenizer: it holds no whitespace, no ';' and no '{'. -/
theorem serialize_token_safe (v : PrimVal) (s : List Char)
    (h : serializePrimValue v = some s) :
    ∀ c ∈ s, isSpaceC c = false ∧ ¬(c = ';') ∧ ¬(c = '{') := by
  cases v with
  | boolean b => cases b <;> (injection h with h2; subst h2; decide)
  | intV i =>
    injection h with h2; subst h2
    intro c hc
    rcases intToDec_chars hc with rfl | ⟨d, hd, rfl⟩
    · exact ⟨rfl, by decide, by decide⟩
    · have := digitChar_props hd
      exact ⟨this.2.2.1, this.2.2.2.1, this.2.2.2.2.1⟩
  | int32V i =>
    injection h with h2; subst h2
    intro c hc
    rcases intToDec_chars hc with rfl | ⟨d, hd, rfl⟩
    · exact ⟨rfl, by decide, by decide⟩
    · have := digitChar_props hd
      exact ⟨this.2.2.1, this.2.2.2.1, this.2.2.2.2.1⟩
  | int64V i =>
    injection h with h2; subst h2
    intro c hc
    rcases intToDec_chars hc with rfl | ⟨d, hd, rfl⟩
    · exact ⟨rfl, by decide, by decide⟩
    · have := digitChar_props hd
      exact ⟨this.2.2.1, this.2.2.2.1, this.2.2.2.2.1⟩
  | uintV n =>
    injection h with h2; subst h2
    intro c hc
    obtain ⟨d, hd, rfl⟩ := natToDec_chars hc
    have := digitChar_props hd
    exact ⟨this.2.2.1, this.2.2.2.1, this.2.2.2.2.1⟩
  | uint32V n =>
    injection h with h2; subst h2
    intro c hc
    obtain ⟨d, hd, rfl⟩ := natToDec_chars hc
    have := digitChar_props hd
    exact ⟨this.2.2.1, this.2.2.2.1, this.2.2.2.2.1⟩
  | uint64V n =>
    injection h with h2; subst h2
    intro c hc
    obtain ⟨d, hd, rfl⟩ := natToDec_chars hc
    have := digitChar_props hd
    exact ⟨this.2.2.1, this.2.2.2.1, this.2.2.2.2.1⟩
  | sizeTV n =>
    injection h with h2; subst h2
    intro c hc
    obtain ⟨d, hd, rfl⟩ := natToDec_chars hc
    have := digitChar_props hd
    exact ⟨this.2.2.1, this.2.2.2.1, this.2.2.2.2.1⟩
  | stringV str =>
    injection h with h2; subst h2
    exact escape_safe str
  | doubleV m =>
    injection h with h2; subst h2
    intro c hc
    rcases doubleToDec_chars hc with rfl | rfl | rfl | ⟨d, hd, rfl⟩
    · exact ⟨rfl, by decide, by decide⟩
    · exact ⟨rfl, by decide, by decide⟩
    · exact ⟨rfl, by decide, by decide⟩
    · have := digitChar_props hd
      exact ⟨this.2.2.1, this.2.2.2.1, this.2.2.2.2.1⟩
  | compactionStyleV e =>
    obtain ⟨p, hmem, hp⟩ := serializeEnum_mem h
    subst hp
    revert hmem
    have : ∀ p ∈ compactionStyleStringMap, ∀ c ∈ p.1,
        isSpaceC c = false ∧ ¬(c = ';') ∧ ¬(c = '{') := by decide
    exact fun hmem => this p hmem
  | compactionPriV e =>
    obtain ⟨p, hmem, hp⟩ := serializeEnum_mem h
    subst hp
    revert hmem
    have : ∀ p ∈ compactionPriStringMap, ∀ c ∈ p.1,
        isSpaceC c = false ∧ ¬(c = ';') ∧ ¬(c = '{') := by decide
    exact fun hmem => this p hmem
  | compressionTypeV e =>
    obtain ⟨p, hmem, hp⟩ := serializeEnum_mem h
    subst hp
    revert hmem
    have : ∀ p ∈ compressionTypeStringMap, ∀ c ∈ p.1,
        isSpaceC c = false ∧ ¬(c = ';') ∧ ¬(c = '{') := by decide
    exact fun hmem => this p hmem
  | checksumTypeV e =>
    obtain ⟨p, hmem, hp⟩ := serializeEnum_mem h
    subst hp
    revert hmem
    have : ∀ p ∈ checksumTypeStringMap, ∀ c ∈ p.1,
        isSpaceC c = false ∧ ¬(c = ';') ∧ ¬(c = '{') := by decide
    exact fun hmem => this p hmem
  | encodingTypeV e =>
    obtain ⟨p, hmem, hp⟩ := serializeEnum_mem h
    subst hp
    revert hmem
    have : ∀ p ∈ encodingTypeStringMap, ∀ c ∈ p.1,
        isSpaceC c = false ∧ ¬(c = ';') ∧ ¬(c = '{') := by decide
    exact fun hmem => this p hmem
  | compactionStopStyleV e =>
    obtain ⟨p, hmem, hp⟩ := serializeEnum_mem h
    subst hp
    revert hmem
    have : ∀ p ∈ compactionStopStyleStringMap, ∀ c ∈ p.1,
        isSpaceC c = false ∧ ¬(c = ';') ∧ ¬(c = '{') := by decide
    exact fun hmem => this p hmem
  | sliceTransformV t =>
    cases t with
    | none =>
      injection h with h2
      subst h2
      decide
    | some st =>
      cases st with
      | fixedPrefixT n =>
        injection h with h2
        subst h2
        intro c hc
        dsimp only at hc
        rw [show sliceName (.fixedPrefixT n) =
          "rocksdb.FixedPrefix.".data ++ intToDec n from rfl] at hc
        rw [List.mem_append] at hc
        rcases hc with hc | hc
        · revert hc
          have : ∀ c ∈ "rocksdb.FixedPrefix.".data,
              isSpaceC c = false ∧ ¬(c = ';') ∧ ¬(c = '{') := by decide
          exact this c
        · rcases intToDec_chars hc with rfl | ⟨d, hd, rfl⟩
          · exact ⟨rfl, by decide, by decide⟩
          · have := digitChar_props hd
            exact ⟨this.2.2.1, this.2.2.2.1, this.2.2.2.2.1⟩
      | cappedPrefixT n =>
        injection h with h2
        subst h2
        intro c hc
        dsimp only at hc
        rw [show sliceName (.cappedPrefixT n) =
          "rocksdb.CappedPrefix.".data ++ intToDec n from rfl] at hc
        rw [List.mem_append] at hc
        rcases hc with hc | hc
        · revert hc
          have : ∀ c ∈ "rocksdb.CappedPrefix.".data,
              isSpaceC c = false ∧ ¬(c = ';') ∧ ¬(c = '{') := by decide
          exact this c
        · rcases intToDec_chars hc with rfl | ⟨d, hd, rfl⟩
          · exact ⟨rfl, by decide, by decide⟩
          · have := digitChar_props hd
            exact ⟨this.2.2.1, this.2.2.2.1, this.2.2.2.2.1⟩
      | noopT =>
        injection h with h2
        subst h2
        decide

/-- The primitive codec round trip: parsing back the serialized form of a
    value (after the unescape pre-pass ParseOption applies to escaped
    inputs) restores the value exactly. -/
theorem parse_serialize (v : PrimVal) (s : List Char)
    (h : serializePrimValue v = some s) :
    parsePrimValue (tagOfVal v) (unescapeOptionString s) = .okVal v := by
  cases v with
  | boolean b => cases b <;> (injection h with h2; subst h2; decide)
  | intV i =>
    injection h with h2; subst h2
    rw [unescape_of_no_bs (fun c hc => by
      rcases intToDec_chars hc with rfl | ⟨d, hd, rfl⟩
      · decide
      · exact (digitChar_props hd).2.2.2.2.2.1)]
    show outcomeOfOpt PrimVal.intV (parseIntM (intToDec i)) = .okVal (.intV i)
    rw [parseIntM_intToDec]
    rfl
  | int32V i =>
    injection h with h2; subst h2
    rw [unescape_of_no_bs (fun c hc => by
      rcases intToDec_chars hc with rfl | ⟨d, hd, rfl⟩
      · decide
      · exact (digitChar_props hd).2.2.2.2.2.1)]
    show outcomeOfOpt PrimVal.int32V (parseIntM (intToDec i)) = .okVal (.int32V i)
    rw [parseIntM_intToDec]
    rfl
  | int64V i =>
    injection h with h2; subst h2
    rw [unescape_of_no_bs (fun c hc => by
      rcases intToDec_chars hc with rfl | ⟨d, hd, rfl⟩
      · decide
      · exact (digitChar_props hd).2.2.2.2.2.1)]
    show outcomeOfOpt PrimVal.int64V (parseIntM (intToDec i)) = .okVal (.int64V i)
    rw [parseIntM_intToDec]
    rfl
  | uintV n =>
    injection h with h2; subst h2
    rw [unescape_of_no_bs (fun c hc => by
      obtain ⟨d, hd, rfl⟩ := natToDec_chars hc
      exact (digitChar_props hd).2.2.2.2.2.1)]
    show outcomeOfOpt PrimVal.uintV (parseNatM (natToDec n)) = .okVal (.uintV n)
    rw [parseNatM_natToDec]
    rfl
  | uint32V n =>
    injection h with h2; subst h2
    rw [unescape_of_no_bs (fun c hc => by
      obtain ⟨d, hd, rfl⟩ := natToDec_chars hc
      exact (digitChar_props hd).2.2.2.2.2.1)]
    show outcomeOfOpt PrimVal.uint32V (parseNatM (natToDec n)) = .okVal (.uint32V n)
    rw [parseNatM_natToDec]
    rfl
  | uint64V n =>
    injection h with h2; subst h2
    rw [unescape_of_no_bs (fun c hc => by
      obtain ⟨d, hd, rfl⟩ := natToDec_chars hc
      exact (digitChar_props hd).2.2.2.2.2.1)]
    show outcomeOfOpt PrimVal.uint64V (parseNatM (natToDec n)) = .okVal (.uint64V n)
    rw [parseNatM_natToDec]
    rfl
  | sizeTV n =>
    injection h with h2; subst h2
    rw [unescape_of_no_bs (fun c hc => by
      obtain ⟨d, hd, rfl⟩ := natToDec_chars hc
      exact (digitChar_props hd).2.2.2.2.2.1)]
    show outcomeOfOpt PrimVal.sizeTV (parseNatM (natToDec n)) = .okVal (.sizeTV n)
    rw [parseNatM_natToDec]
    rfl
  | stringV str =>
    injection h with h2; subst h2
    rw [unescape_escape]
    rfl
  | doubleV m =>
    injection h with h2; subst h2
    rw [unescape_of_no_bs (fun c hc => by
      rcases doubleToDec_chars hc with rfl | rfl | rfl | ⟨d, hd, rfl⟩
      · decide
      · decide
      · decide
      · exact (digitChar_props hd).2.2.2.2.2.1)]
    show outcomeOfOpt PrimVal.doubleV (parseDoubleM (doubleToDec m)) = .okVal (.doubleV m)
    rw [parseDoubleM_doubleToDec]
    rfl
  | compactionStyleV e =>
    obtain ⟨p, hmem, hp⟩ := serializeEnum_mem h
    have hnb : ∀ c ∈ s, ¬(c = '\\') := by
      subst hp
      revert hmem
      have : ∀ p ∈ compactionStyleStringMap, ∀ c ∈ p.1, ¬(c = '\\') := by decide
      exact fun hmem => this p hmem
    rw [unescape_of_no_bs hnb]
    show outcomeOfEnum PrimVal.compactionStyleV
      (parseEnum compactionStyleStringMap s) = .okVal (.compactionStyleV e)
    rw [enumRound_compactionStyle e s h]
    rfl
  | compactionPriV e =>
    obtain ⟨p, hmem, hp⟩ := serializeEnum_mem h
    have hnb : ∀ c ∈ s, ¬(c = '\\') := by
      subst hp
      revert hmem
      have : ∀ p ∈ compactionPriStringMap, ∀ c ∈ p.1, ¬(c = '\\') := by decide
      exact fun hmem => this p hmem
    rw [unescape_of_no_bs hnb]
    show outcomeOfEnum PrimVal.compactionPriV
      (parseEnum compactionPriStringMap s) = .okVal (.compactionPriV e)
    rw [enumRound_compactionPri e s h]
    rfl
  | compressionTypeV e =>
    obtain ⟨p, hmem, hp⟩ := serializeEnum_mem h
    have hnb : ∀ c ∈ s, ¬(c = '\\') := by
      subst hp
      revert hmem
      have : ∀ p ∈ compressionTypeStringMap, ∀ c ∈ p.1, ¬(c = '\\') := by decide
      exact fun hmem => this p hmem
    rw [unescape_of_no_bs hnb]
    show outcomeOfEnum PrimVal.compressionTypeV
      (parseEnum compressionTypeStringMap s) = .okVal (.compressionTypeV e)
    rw [enumRound_compressionType e s h]
    rfl
  | checksumTypeV e =>
    obtain ⟨p, hmem, hp⟩ := serializeEnum_mem h
    have hnb : ∀ c ∈ s, ¬(c = '\\') := by
      subst hp
      revert hmem
      have : ∀ p ∈ checksumTypeStringMap, ∀ c ∈ p.1, ¬(c = '\\') := by decide
      exact fun hmem => this p hmem
    rw [unescape_of_no_bs hnb]
    show outcomeOfEnum PrimVal.checksumTypeV
      (parseEnum checksumTypeStringMap s) = .okVal (.checksumTypeV e)
    rw [enumRound_checksumType e s h]
    rfl
  | encodingTypeV e =>
    obtain ⟨p, hmem, hp⟩ := serializeEnum_mem h
    have hnb : ∀ c ∈ s, ¬(c = '\\') := by
      subst hp
      revert hmem
      have : ∀ p ∈ encodingTypeStringMap, ∀ c ∈ p.1, ¬(c = '\\') := by decide
      exact fun hmem => this p hmem
    rw [unescape_of_no_bs hnb]
    show outcomeOfEnum PrimVal.encodingTypeV
      (parseEnum encodingTypeStringMap s) = .okVal (.encodingTypeV e)
    rw [enumRound_encodingType e s h]
    rfl
  | compactionStopStyleV e =>
    obtain ⟨p, hmem, hp⟩ := serializeEnum_mem h
    have hnb : ∀ c ∈ s, ¬(c = '\\') := by
      subst hp
      revert hmem
      have : ∀ p ∈ compactionStopStyleStringMap, ∀ c ∈ p.1, ¬(c = '\\') := by decide
      exact fun hmem => this p hmem
    rw [unescape_of_no_bs hnb]
    show outcomeOfEnum PrimVal.compactionStopStyleV
      (parseEnum compactionStopStyleStringMap s) = .okVal (.compactionStopStyleV e)
    rw [enumRound_compactionStopStyle e s h]
    rfl
  | sliceTransformV t =>
    cases t with
    | none =>
      injection h with h2
      subst h2
      decide
    | some st =>
      cases st with
      | fixedPrefixT n =>
        injection h with h2
        subst h2
        dsimp only
        rw [show sliceName (.fixedPrefixT n) =
          "rocksdb.FixedPrefix.".data ++ intToDec n from rfl]
        rw [unescape_of_no_bs (fun c hc => by
          rw [List.mem_append] at hc
          rcases hc with hc | hc
          · revert hc
            have : ∀ c ∈ "rocksdb.FixedPrefix.".data, ¬(c = '\\') := by decide
            exact this c
          · rcases intToDec_chars hc with rfl | ⟨d, hd, rfl⟩
            · decide
            · exact (digitChar_props hd).2.2.2.2.2.1)]
        show parseSliceTransform ("rocksdb.FixedPrefix.".data ++ intToDec n) =
          .okVal (.sliceTransformV (some (.fixedPrefixT n)))
        exact parseSlice_fixed n
      | cappedPrefixT n =>
        injection h with h2
        subst h2
        dsimp only
        rw [show sliceName (.cappedPrefixT n) =
          "rocksdb.CappedPrefix.".data ++ intToDec n from rfl]
        rw [unescape_of_no_bs (fun c hc => by
          rw [List.mem_append] at hc
          rcases hc with hc | hc
          · revert hc
            have : ∀ c ∈ "rocksdb.CappedPrefix.".data, ¬(c = '\\') := by decide
            exact this c
          · rcases intToDec_chars hc with rfl | ⟨d, hd, rfl⟩
            · decide
            · exact (digitChar_props hd).2.2.2.2.2.1)]
        show parseSliceTransform ("rocksdb.CappedPrefix.".data ++ intToDec n) =
          .okVal (.sliceTransformV (some (.cappedPrefixT n)))
        exact parseSlice_capped n
      | noopT =>
        injection h with h2
        subst h2
        decide

theorem getLast?_append_right {r : List Char} (h : r ≠ []) : ∀ l : List Char,
    (l ++ r).getLast? = r.getLast? := by
  intro l
  induction l with
  | nil => rfl
  | cons c t ih =>
    rw [List.cons_append]
    rw [getLast?_cons_of_ne_nil (by
      intro hn
      rw [List.append_eq_nil] at hn
      exact h hn.2) c]
    exact ih

theorem findIdxL_append_none_cons {ch : Char} {l : List Char}
    (h : findIdxL ch l = Option.none) (r : List Char) :
    findIdxL ch (l ++ ch :: r) = some l.length := by
  have h1 := findIdxL_append_of_some (findIdxL_append_none_self h) r
  rw [List.append_assoc, List.singleton_append] at h1
  exact h1

theorem lookupKV_nil (k : List Char) : lookupKV [] k = Option.none := rfl

theorem lookupKV_append_none {a : List (List Char × List Char)}
    {k : List Char} (h : lookupKV a k = Option.none)
    (b : List (List Char × List Char)) :
    lookupKV (a ++ b) k = lookupKV b k := by
  unfold lookupKV at h ⊢
  rw [List.find?_append]
  rw [Option.map_eq_none'] at h
  rw [h]
  rfl

theorem lookupKV_singleton_ne {n k v : List Char} (h : ¬(n = k)) :
    lookupKV [(n, v)] k = Option.none := by
  unfold lookupKV
  rw [List.find?_cons_of_neg _ (by simpa using h)]
  rfl

theorem insertKV_absent {acc : List (List Char × List Char)}
    {k : List Char} (h : lookupKV acc k = Option.none) (v : List Char) :
    insertKV acc k v = acc ++ [(k, v)] := by
  unfold insertKV
  rw [h]
  rfl

theorem nextTokenCore_value (sv z : List Char)
    (hsv : ∀ c ∈ sv, isSpaceC c = false ∧ ¬(c = ';') ∧ ¬(c = '{')) :
    nextTokenCore (sv ++ ';' :: z) ';' = .ok (sv, some sv.length) := by
  cases sv with
  | nil =>
    rw [List.nil_append]
    have hdrop : (';' :: z).drop (((';' :: z).takeWhile isSpaceC).length) =
        ';' :: z := by
      rw [List.takeWhile_cons, if_neg (by decide)]
      rfl
    rw [nextTokenCore_of_drop_cons ';' hdrop]
    rw [if_neg (by decide)]
    rw [show findIdxL ';' (';' :: z) = some 0 from by
      unfold findIdxL
      rw [if_pos rfl]]
    rw [List.takeWhile_cons, if_neg (by decide)]
    rfl
  | cons a t =>
    have ha := hsv a (by simp)
    have htw : ((a :: t ++ ';' :: z).takeWhile isSpaceC) = [] := by
      rw [List.cons_append, List.takeWhile_cons, if_neg (by rw [ha.1]; simp)]
    have hdrop : (a :: t ++ ';' :: z).drop
        (((a :: t ++ ';' :: z).takeWhile isSpaceC).length) =
        a :: (t ++ ';' :: z) := by
      rw [htw]
      rfl
    rw [nextTokenCore_of_drop_cons ';' hdrop]
    rw [if_neg ha.2.2]
    have hfind : findIdxL ';' (a :: (t ++ ';' :: z)) = some (a :: t).length := by
      rw [← List.cons_append]
      exact findIdxL_append_none_cons
        (findIdxL_eq_none (fun c hc => (hsv c hc).2.1)) z
    rw [hfind]
    dsimp only
    have htake : ((a :: (t ++ ';' :: z)).take (a :: t).length) = a :: t := by
      rw [← List.cons_append, take_append_le (Nat.le_refl _) _, List.take_length]
    rw [htake, trimL_of_all (fun c hc => (hsv c hc).1), htw]
    simp

theorem stmGoAux_step (fuel : Nat) (n sv z : List Char)
    (acc : List (List Char × List Char)) (hn : wfNameP n)
    (hsv : ∀ c ∈ sv, isSpaceC c = false ∧ ¬(c = ';') ∧ ¬(c = '{')) :
    stmGoAux (fuel + 1) (n ++ '=' :: (sv ++ ';' :: z)) acc =
      stmGoAux fuel z (insertKV acc n sv) := by
  obtain ⟨hne, hchars⟩ := hn
  have hrem_ne : n ++ '=' :: (sv ++ ';' :: z) ≠ [] := by
    intro h
    rw [List.append_eq_nil] at h
    exact absurd h.2 (by simp)
  have hfind : findIdxL '=' (n ++ '=' :: (sv ++ ';' :: z)) = some n.length :=
    findIdxL_append_none_cons
      (findIdxL_eq_none (fun c hc hceq => hchars c hc (Or.inl hceq))) _
  have hnspace : ∀ c ∈ n, isSpaceC c = false := by
    intro c hc
    by_contra hx
    rw [Bool.not_eq_false] at hx
    exact hchars c hc (Or.inr (Or.inr (Or.inr (Or.inr hx))))
  have htake : trimL ((n ++ '=' :: (sv ++ ';' :: z)).take n.length) = n := by
    rw [take_append_le (Nat.le_refl _) _, List.take_length]
    exact trimL_of_all hnspace
  have hdrop1 : (n ++ '=' :: (sv ++ ';' :: z)).drop (n.length + 1) =
      sv ++ ';' :: z := by
    have h1 := List.drop_left (n ++ ['=']) (sv ++ ';' :: z)
    rw [show (n ++ ['=']).length = n.length + 1 from by simp] at h1
    rw [show (n ++ ['=']) ++ (sv ++ ';' :: z) = n ++ '=' :: (sv ++ ';' :: z)
      from by simp] at h1
    exact h1
  have hdrop2 : (n ++ '=' :: (sv ++ ';' :: z)).drop (n.length + 1 + sv.length + 1) =
      z := by
    have h2 := List.drop_left (n ++ '=' :: (sv ++ [';'])) z
    rw [show (n ++ '=' :: (sv ++ [';'])).length = n.length + 1 + sv.length + 1
      from by simp; omega] at h2
    rw [show (n ++ '=' :: (sv ++ [';'])) ++ z = n ++ '=' :: (sv ++ ';' :: z)
      from by simp] at h2
    exact h2
  rw [stmGoAux]
  rw [if_neg hrem_ne, hfind]
  dsimp only
  rw [htake, if_neg hne, hdrop1, nextTokenCore_value sv z hsv]
  dsimp only
  rw [hdrop2]

theorem serializeRecordModel_ne_nil (p : List Char × PrimVal)
    (rest : List (List Char × PrimVal)) : serializeRecordModel (p :: rest) ≠ [] := by
  rw [serializeRecordModel]
  intro h
  rw [List.append_eq_nil] at h
  exact absurd h.2 (by simp)

theorem serializeRecordModel_getLast : ∀ (r : List (List Char × PrimVal)),
    r ≠ [] → (serializeRecordModel r).getLast? = some ';' := by
  intro r
  induction r with
  | nil => intro h; exact absurd rfl h
  | cons p rest ih =>
    intro _
    rw [serializeRecordModel]
    cases hr : rest with
    | nil =>
      rw [show serializeRecordModel [] = [] from rfl]
      rw [show p.1 ++ '=' :: ((serializePrimValue p.2).getD [] ++ ';' :: []) =
        (p.1 ++ '=' :: (serializePrimValue p.2).getD []) ++ [';'] from by simp]
      exact List.getLast?_concat _
    | cons q rest2 =>
      rw [show p.1 ++ '=' :: ((serializePrimValue p.2).getD [] ++ ';' ::
          serializeRecordModel (q :: rest2)) =
        (p.1 ++ '=' :: ((serializePrimValue p.2).getD [] ++ [';'])) ++
          serializeRecordModel (q :: rest2) from by simp]
      rw [getLast?_append_right (serializeRecordModel_ne_nil q rest2) _]
      exact hr ▸ ih (by rw [hr]; simp)

theorem trimL_serializeRecordModel (r : List (List Char × PrimVal))
    (hwf : ∀ p ∈ r, wfNameP p.1) :
    trimL (serializeRecordModel r) = serializeRecordModel r := by
  cases r with
  | nil => rfl
  | cons p rest =>
    unfold trimL
    have hd1 : (serializeRecordModel (p :: rest)).dropWhile isSpaceC =
        serializeRecordModel (p :: rest) := by
      obtain ⟨hne, hchars⟩ := hwf p (by simp)
      cases hp : p.1 with
      | nil => exact absurd hp hne
      | cons c t =>
        have hcs : isSpaceC c = false := by
          by_contra hx
          rw [Bool.not_eq_false] at hx
          exact hchars c (by rw [hp]; simp)
            (Or.inr (Or.inr (Or.inr (Or.inr hx))))
        rw [serializeRecordModel, hp, List.cons_append, List.dropWhile_cons]
        rw [if_neg (by rw [hcs]; simp)]
    rw [hd1]
    have hlast := serializeRecordModel_getLast (p :: rest) (by simp)
    have hd2 : (serializeRecordModel (p :: rest)).reverse.dropWhile isSpaceC =
        (serializeRecordModel (p :: rest)).reverse := by
      cases hrv : (serializeRecordModel (p :: rest)).reverse with
      | nil => rfl
      | cons c t =>
        have hhead : (serializeRecordModel (p :: rest)).reverse.head? = some c := by
          rw [hrv]
          rfl
        rw [List.head?_reverse] at hhead
        rw [hlast] at hhead
        injection hhead with hc
        rw [List.dropWhile_cons, if_neg (by rw [← hc]; decide)]
    rw [hd2, List.reverse_reverse]

theorem peelBraces_serializeRecordModel (p : List Char × PrimVal)
    (rest : List (List Char × PrimVal)) (hn : p.1 ≠ [])
    (hbrace : ∀ c ∈ p.1, ¬(c = '{')) :
    peelBraces (serializeRecordModel (p :: rest)) =
      serializeRecordModel (p :: rest) := by
  unfold peelBraces
  rw [peelAux]
  rw [if_neg]
  intro hcond
  obtain ⟨-, hhead, -⟩ := hcond
  cases hp : p.1 with
  | nil => exact hn hp
  | cons c t =>
    rw [serializeRecordModel, hp, List.cons_append, List.head?_cons] at hhead
    injection hhead with hh
    exact hbrace c (by rw [hp]; simp) hh

theorem stmGoAux_serialize : ∀ (r : List (List Char × PrimVal)) (fuel : Nat)
    (acc : List (List Char × List Char)),
    (serializeRecordModel r).length < fuel →
    (∀ p ∈ r, wfNameP p.1) →
    (∀ p ∈ r, ∀ c ∈ (serializePrimValue p.2).getD [],
      isSpaceC c = false ∧ ¬(c = ';') ∧ ¬(c = '{')) →
    (∀ p ∈ r, lookupKV acc p.1 = Option.none) →
    (r.map (fun p => p.1)).Nodup →
    stmGoAux fuel (serializeRecordModel r) acc =
      .ok (acc ++ r.map (fun p => (p.1, (serializePrimValue p.2).getD []))) := by
  intro r
  induction r with
  | nil =>
    intro fuel acc hf _ _ _ _
    cases fuel with
    | zero => simp [serializeRecordModel] at hf
    | succ f =>
      rw [show serializeRecordModel [] = [] from rfl, stmGoAux, if_pos rfl]
      simp
  | cons p rest ih =>
    intro fuel acc hf hwf hsafe hacc hnodup
    have hp1len : 1 ≤ p.1.length :=
      List.length_pos.mpr (hwf p (by simp)).1
    have hlen : (serializeRecordModel (p :: rest)).length =
        p.1.length + 1 + ((serializePrimValue p.2).getD []).length + 1 +
          (serializeRecordModel rest).length := by
      rw [serializeRecordModel]
      simp only [List.length_append, List.length_cons]
      omega
    cases fuel with
    | zero => omega
    | succ f =>
      rw [List.map_cons] at hnodup
      rw [List.nodup_cons] at hnodup
      rw [serializeRecordModel]
      rw [stmGoAux_step f p.1 _ _ acc (hwf p (by simp)) (hsafe p (by simp))]
      rw [insertKV_absent (hacc p (by simp)) _]
      rw [ih f (acc ++ [(p.1, (serializePrimValue p.2).getD [])])
        (by omega)
        (fun q hq => hwf q (by simp [hq]))
        (fun q hq => hsafe q (by simp [hq]))
        (fun q hq => by
          rw [lookupKV_append_none (hacc q (by simp [hq])) _]
          exact lookupKV_singleton_ne (fun hpq =>
            hnodup.1 (hpq ▸ List.mem_map_of_mem _ hq)))
        hnodup.2]
      simp

theorem stringToMap_serialize (r : List (List Char × PrimVal))
    (hwf : ∀ p ∈ r, wfNameP p.1)
    (hsafe : ∀ p ∈ r, ∀ c ∈ (serializePrimValue p.2).getD [],
      isSpaceC c = false ∧ ¬(c = ';') ∧ ¬(c = '{'))
    (hnodup : (r.map (fun p => p.1)).Nodup) :
    stringToMap (serializeRecordModel r) =
      .ok (r.map (fun p => (p.1, (serializePrimValue p.2).getD []))) := by
  cases r with
  | nil => rfl
  | cons p rest =>
    unfold stringToMap
    rw [trimL_serializeRecordModel _ hwf]
    rw [peelBraces_serializeRecordModel p rest (hwf p (by simp)).1
      (fun c hc hcb => (hwf p (by simp)).2 c hc
        (Or.inr (Or.inr (Or.inl hcb))))]
    rw [stmGoAux_serialize (p :: rest)
      ((serializeRecordModel (p :: rest)).length + 1) [] (by omega) hwf hsafe
      (fun q _ => rfl) hnodup]
    rw [List.nil_append]

theorem lookupPV_append_none {a : List (List Char × PrimVal)} {k : List Char}
    (h : lookupPV a k = Option.none) (b : List (List Char × PrimVal)) :
    lookupPV (a ++ b) k = lookupPV b k := by
  unfold lookupPV at h ⊢
  rw [List.find?_append]
  rw [Option.map_eq_none'] at h
  rw [h]
  rfl

theorem lookupPV_not_mem {a : List (List Char × PrimVal)} {k : List Char}
    (h : ¬(k ∈ a.map (fun p => p.1))) : lookupPV a k = Option.none := by
  unfold lookupPV
  rw [List.find?_eq_none.mpr]
  · rfl
  · intro x hx
    simp only [decide_eq_true_eq]
    intro hxk
    exact h (hxk ▸ List.mem_map_of_mem _ hx)

theorem lookupPV_cons_self (k : List Char) (v : PrimVal)
    (rest : List (List Char × PrimVal)) :
    lookupPV ((k, v) :: rest) k = some v := by
  unfold lookupPV
  rw [List.find?_cons_of_pos _ (by simp)]
  rfl

theorem setFieldVal_absent {rec : List (List Char × PrimVal)} {k : List Char}
    (h : ∀ p ∈ rec, ¬(p.1 = k)) (v : PrimVal) : setFieldVal rec k v = rec := by
  unfold setFieldVal
  rw [List.map_congr_left (fun p hp => by rw [if_neg (h p hp)])]
  simp

theorem setFieldVal_append (a b : List (List Char × PrimVal)) (k : List Char)
    (v : PrimVal) :
    setFieldVal (a ++ b) k v = setFieldVal a k v ++ setFieldVal b k v :=
  List.map_append _ _ _

theorem setFieldVal_cons_self (k : List Char) (d v : PrimVal)
    (rest : List (List Char × PrimVal)) :
    setFieldVal ((k, d) :: rest) k v = (k, v) :: setFieldVal rest k v := by
  unfold setFieldVal
  rw [List.map_cons]
  simp

theorem tagOfVal_defaultPrim (v : PrimVal) :
    tagOfVal (defaultPrim (tagOfVal v)) = tagOfVal v := by
  cases v <;> rfl

theorem defaultPeer_names (r : List (List Char × PrimVal)) :
    (defaultPeer r).map (fun p => p.1) = r.map (fun p => p.1) := by
  unfold defaultPeer
  rw [List.map_map]
  rfl

theorem parseOption_primDesc_ok {n value : List Char} {t : OptionType}
    {ctx : ConfigOptions} {st : List (List Char × PrimVal)} {v : PrimVal}
    (hesc : ctx.inputStringsEscaped = true)
    (hp : parsePrimValue t (unescapeOptionString value) = .okVal v) :
    parseOption (primDesc n t) n value ctx st = .ok (setFieldVal st n v) := by
  unfold parseOption
  rw [if_neg (by simp [primDesc, OptTypeInfo.IsDeprecated])]
  rw [hesc]
  dsimp only [primDesc]
  rw [if_pos rfl, hp]

theorem configureFromMapModel_cons (kv : List Char × List Char)
    (m : List (List Char × List Char)) (ctx : ConfigOptions)
    (rec : List (List Char × PrimVal)) :
    configureFromMapModel (kv :: m) ctx rec =
      (match lookupPV rec kv.1 with
       | some v0 => parseOption (primDesc kv.1 (tagOfVal v0)) kv.1 kv.2 ctx rec
       | Option.none =>
         if ctx.ignoreUnknownOptions then .ok rec
         else .error (.invalidArgument ("Unrecognized option: ".data ++ kv.1))).bind
        (fun rec2 => configureFromMapModel m ctx rec2) := by
  unfold configureFromMapModel
  rw [List.foldlM_cons]
  rfl

theorem configureFromMapModel_serialize :
    ∀ (r done : List (List Char × PrimVal)) (ctx : ConfigOptions),
    ctx.inputStringsEscaped = true →
    (∀ p ∈ r, ∃ s, serializePrimValue p.2 = some s) →
    (((done ++ r).map (fun p => p.1)).Nodup) →
    configureFromMapModel
        (r.map (fun p => (p.1, (serializePrimValue p.2).getD []))) ctx
        (done ++ defaultPeer r) = .ok (done ++ r) := by
  intro r
  induction r with
  | nil =>
    intro done ctx _ _ _
    rw [List.map_nil]
    unfold configureFromMapModel
    rw [List.foldlM_nil]
    rfl
  | cons p rest ih =>
    intro done ctx hesc hser hnodup
    obtain ⟨sv, hsv⟩ := hser p (by simp)
    have hnodup0 := hnodup
    rw [List.map_append, List.nodup_append] at hnodup
    obtain ⟨hnd, hnr, hdisj⟩ := hnodup
    have hp1notdone : ¬(p.1 ∈ done.map (fun p => p.1)) :=
      fun hmem => (hdisj hmem) (List.mem_map_of_mem _ (List.mem_cons_self p rest))
    rw [List.map_cons, List.nodup_cons] at hnr
    have hlook : lookupPV (done ++ defaultPeer (p :: rest)) p.1 =
        some (defaultPrim (tagOfVal p.2)) := by
      rw [lookupPV_append_none (lookupPV_not_mem hp1notdone) _]
      rw [show defaultPeer (p :: rest) =
        (p.1, defaultPrim (tagOfVal p.2)) :: defaultPeer rest from rfl]
      exact lookupPV_cons_self _ _ _
    have hset : setFieldVal (done ++ defaultPeer (p :: rest)) p.1 p.2 =
        (done ++ [p]) ++ defaultPeer rest := by
      rw [setFieldVal_append]
      rw [setFieldVal_absent (fun q hq hqk => by
        have hmem2 : q.1 ∈ done.map (fun p => p.1) := List.mem_map_of_mem _ hq
        rw [hqk] at hmem2
        exact hp1notdone hmem2) _]
      rw [show defaultPeer (p :: rest) =
        (p.1, defaultPrim (tagOfVal p.2)) :: defaultPeer rest from rfl]
      rw [setFieldVal_cons_self]
      rw [setFieldVal_absent (fun q hq hqk => by
        have hmem2 : q.1 ∈ (defaultPeer rest).map (fun p => p.1) :=
          List.mem_map_of_mem _ hq
        rw [defaultPeer_names] at hmem2
        rw [hqk] at hmem2
        exact hnr.1 hmem2) _]
      simp
    rw [List.map_cons, configureFromMapModel_cons]
    rw [hlook]
    dsimp only
    rw [tagOfVal_defaultPrim]
    rw [show ((serializePrimValue p.2).getD []) = sv from by rw [hsv]; rfl]
    rw [parseOption_primDesc_ok hesc (parse_serialize p.2 sv hsv)]
    rw [hset]
    show configureFromMapModel
      (rest.map (fun p => (p.1, (serializePrimValue p.2).getD []))) ctx
      ((done ++ [p]) ++ defaultPeer rest) = .ok (done ++ p :: rest)
    rw [ih (done ++ [p]) ctx hesc (fun q hq => hser q (by simp [hq]))
      (by rw [List.append_assoc, List.singleton_append]; exact hnodup0)]
    simp

theorem areOptionsEqualT_refl (v : PrimVal)
    (h : ¬(tagOfVal v = OptionType.kSliceTransform)) :
    areOptionsEqualT (tagOfVal v) v v = true := by
  cases v <;> first
    | exact absurd rfl h
    | simp [tagOfVal, areOptionsEqualT, areEqualDoubles]

theorem matchesRecordModel_refl : ∀ (r : List (List Char × PrimVal)),
    (∀ p ∈ r, ¬(tagOfVal p.2 = OptionType.kSliceTransform)) →
    matchesRecordModel r r = true := by
  intro r
  induction r with
  | nil => intro _; rfl
  | cons p rest ih =>
    intro h
    rw [matchesRecordModel]
    rw [areOptionsEqualT_refl p.2 (h p (by simp))]
    rw [ih (fun q hq => h q (by simp [hq]))]
    simp

/-- Claim C1: round trip.  For a well-formed flat record (the model
    Configurable: distinct grammar-safe names, every field of a primitive
    tag that the AreOptionsEqual switch covers, every value serializable),
    serializing through GetOptionString's name=value form, tokenizing with
    StringToMap and configuring a default-constructed peer through
    ParseOption restores the record exactly, so the peer Matches the
    original; and the primitive codec round trip holds for every primitive
    value of every supported tag: parsing the serialized form (after the
    unescape pre-pass applied to escaped inputs) restores the value. -/
theorem c1_round_trip (r : List (List Char × PrimVal)) (ctx : ConfigOptions)
    (hw : wfRecordP r)
    (hser : ∀ p ∈ r, (serializePrimValue p.2).isSome = true)
    (hesc : ctx.inputStringsEscaped = true) :
    (stringToMap (serializeRecordModel r) =
        .ok (r.map (fun p => (p.1, (serializePrimValue p.2).getD []))) ∧
      configureFromMapModel
        (r.map (fun p => (p.1, (serializePrimValue p.2).getD []))) ctx
        (defaultPeer r) = .ok r ∧
      matchesRecordModel r r = true) ∧
    (∀ (v : PrimVal) (s : List Char), serializePrimValue v = some s →
      parsePrimValue (tagOfVal v) (unescapeOptionString s) = .okVal v) := by
  obtain ⟨hnodup, hprops⟩ := hw
  have hser2 : ∀ p ∈ r, ∃ s, serializePrimValue p.2 = some s := by
    intro p hp
    exact Option.isSome_iff_exists.mp (hser p hp)
  have hsafe : ∀ p ∈ r, ∀ c ∈ (serializePrimValue p.2).getD [],
      isSpaceC c = false ∧ ¬(c = ';') ∧ ¬(c = '{') := by
    intro p hp c hc
    obtain ⟨s, hs⟩ := hser2 p hp
    rw [hs] at hc
    exact serialize_token_safe p.2 s hs c hc
  have hwf : ∀ p ∈ r, wfNameP p.1 := fun p hp => (hprops p hp).1
  refine ⟨⟨?_, ?_, ?_⟩, parse_serialize⟩
  · exact stringToMap_serialize r hwf hsafe hnodup
  · have hc := configureFromMapModel_serialize r [] ctx hesc hser2
      (by rw [List.nil_append]; exact hnodup)
    rw [List.nil_append, List.nil_append] at hc
    exact hc
  · exact matchesRecordModel_refl r (fun p hp => (hprops p hp).2)

/-- Claim C1 witness: the concrete four-field record (int, bool, string with
    grammar characters, enum) round-trips through serialize, StringToMap and
    configure-the-default-peer. -/
theorem c1_round_trip_witness :
    wfRecordP c1Rec ∧
      (∀ p ∈ c1Rec, (serializePrimValue p.2).isSome = true) ∧
      (stringToMap (serializeRecordModel c1Rec) =
          .ok (c1Rec.map (fun p => (p.1, (serializePrimValue p.2).getD []))) ∧
        configureFromMapModel
          (c1Rec.map (fun p => (p.1, (serializePrimValue p.2).getD [])))
          {} (defaultPeer c1Rec) = .ok c1Rec ∧
        matchesRecordModel c1Rec c1Rec = true) ∧
      (∀ (v : PrimVal) (s : List Char), serializePrimValue v = some s →
        parsePrimValue (tagOfVal v) (unescapeOptionString s) = .okVal v) :=
  ⟨by decide, by decide,
    (c1_round_trip c1Rec {} (by decide) (by decide) rfl).1,
    (c1_round_trip c1Rec {} (by decide) (by decide) rfl).2⟩

end RocksSpec
